import Mathlib

/-!
Verification of the Othello engine: a shallow embedding of the board/rules
engine (`main.py`), the standalone move generator and stability helpers
(`utils.py`, `heuristics.py`), the minimax search with alpha-beta pruning
(`minmax.py`) and the final move-selection logic of the MCTS agent
(`mcts.py`), together with proofs of the specification's claims about them.

The board is the 8 by 8 integer grid of `Othello.__init__` (0 = empty,
1 = black, -1 = white), embedded as a list of rows.  Machine loops that walk
rays across the board are embedded with an explicit fuel of 16 steps, which
is more than any in-bounds ray can use (a ray leaves the 8-wide board after
at most 8 steps).
-/

/-- Safe list lookup with a default, mirroring an in-bounds Python index. -/
def nthD {α : Type} (d : α) : List α → Nat → α
  | [], _ => d
  | x :: _, 0 => x
  | _ :: xs, n+1 => nthD d xs n

/-- In-place update of one list entry, mirroring a Python index assignment. -/
def setIdx {α : Type} : List α → Nat → α → List α
  | [], _, _ => []
  | _ :: xs, 0, v => v :: xs
  | x :: xs, n+1, v => x :: setIdx xs n v

/-- Concatenation-map over a list (used to collect moves cell by cell). -/
def cmap {α β : Type} (f : α → List β) : List α → List β
  | [] => []
  | x :: xs => f x ++ cmap f xs

/-- The 8 by 8 grid of `Othello.board`: a list of rows of cell values. -/
abbrev Board := List (List Int)

/-- A move or cell coordinate, a (row, column) pair. -/
abbrev Move := Int × Int

/-- Read one cell, `board[r, c]`. -/
def cellv (b : Board) (q : Move) : Int := nthD 0 (nthD [] b q.1.toNat) q.2.toNat

/-- The bound check `0 <= r < 8 and 0 <= c < 8` of the Python loops. -/
def inB (q : Move) : Prop := 0 ≤ q.1 ∧ q.1 < 8 ∧ 0 ≤ q.2 ∧ q.2 < 8

instance (q : Move) : Decidable (inB q) := by unfold inB; infer_instance

/-- Write one cell, `board[r, c] = v`. -/
def setCellP (b : Board) (q : Move) (v : Int) : Board :=
  setIdx b q.1.toNat (setIdx (nthD [] b q.1.toNat) q.2.toNat v)

/-- Well-formedness of a game grid: 8 rows of 8 cells, as built by
`np.zeros((8, 8))` in `Othello.__init__`. -/
def WB (b : Board) : Prop := b.length = 8 ∧ ∀ row ∈ b, row.length = 8

instance (b : Board) : Decidable (WB b) := by unfold WB; infer_instance

/-- The direction list of `Othello.valid_moves` and `Othello.apply_move`. -/
def directions : List Move :=
  [(-1, -1), (-1, 0), (-1, 1), (0, -1), (0, 1), (1, -1), (1, 0), (1, 1)]

/-- The row/column indices `range(8)` of the Python loops. -/
def rng8 : List Int := [0, 1, 2, 3, 4, 5, 6, 7]

/-- The cell reached from `q` after `k` steps in direction `d`. -/
def posAt (q d : Move) (k : Nat) : Move :=
  (q.1 + (k : Int) * d.1, q.2 + (k : Int) * d.2)

/-- The inner `while` walk of `Othello.valid_moves`: from the current cell,
track whether an opponent disk has been crossed (`found_opponent`), and
return the first empty cell reached after crossing at least one. -/
def scanDir (b : Board) (p dr dc : Int) : Int → Int → Bool → Nat → Option Move
  | _, _, _, 0 => none
  | r, c, found, fuel+1 =>
    if inB (r, c) then
      if cellv b (r, c) = -p then scanDir b p dr dc (r + dr) (c + dc) true fuel
      else if cellv b (r, c) = 0 ∧ found = true then some (r, c)
      else none
    else none

/-- `Othello.valid_moves` before set-deduplication: scan all 8 directions
from every cell holding the player's disk. -/
def validMovesRaw (b : Board) (p : Int) : List Move :=
  cmap (fun r => cmap (fun c =>
    if cellv b (r, c) = p then
      directions.filterMap (fun d =>
        scanDir b p d.1 d.2 (r + d.1) (c + d.2) false 16)
    else []) rng8) rng8

/-- Keep the first occurrence of every element, dropping later duplicates
(the Python code accumulates moves into a `set`). -/
def uniqAux : List Move → List Move → List Move
  | _, [] => []
  | seen, x :: xs => if x ∈ seen then uniqAux seen xs else x :: uniqAux (x :: seen) xs

/-- Duplicate-free move list, one entry per element of the Python set. -/
def uniq (l : List Move) : List Move := uniqAux [] l

/-- `Othello.valid_moves(player)`: the set of legal moves for `player`. -/
def validMoves (b : Board) (p : Int) : List Move := uniq (validMovesRaw b p)

/-- The `while` loop of one direction of `Othello.apply_move`: collect the
contiguous run of opponent disks (`pieces_to_flip`); on reaching a
same-player disk return the collected run, on reaching anything else (or the
board edge) return the empty run. -/
def collectFlips (b : Board) (p dr dc : Int) : Int → Int → List Move → Nat → List Move
  | _, _, _, 0 => []
  | r, c, acc, fuel+1 =>
    if inB (r, c) then
      if cellv b (r, c) = -p then
        collectFlips b p dr dc (r + dr) (c + dc) (acc ++ [(r, c)]) fuel
      else if cellv b (r, c) = p then acc
      else []
    else []

/-- The run of disks flipped in direction `d` by a disk placed at `m`. -/
def flipRun (b : Board) (p : Int) (m d : Move) : List Move :=
  collectFlips b p d.1 d.2 (m.1 + d.1) (m.2 + d.2) [] 16

/-- `Othello.apply_move(move, player)`: returns the success flag and the
resulting board.  An illegal move returns `false` with the board untouched;
a legal move places the disk and then flips the collected run of each of the
8 directions in turn. -/
def applyMove (b : Board) (m : Move) (p : Int) : Bool × Board :=
  if m ∈ validMoves b p then
    let b1 := setCellP b m p
    (true, directions.foldl
      (fun bb d => (flipRun bb p m d).foldl (fun b2 q => setCellP b2 q p) bb) b1)
  else (false, b)

/-- Abstract view of one `apply_move` direction walk: the number of
consecutive in-bounds opponent disks before an in-bounds same-player disk,
or `none` when the walk ends at an empty cell, the board edge, or fuel
exhaustion. -/
def runLen (b : Board) (p dr dc : Int) : Int → Int → Nat → Option Nat
  | _, _, 0 => none
  | r, c, fuel+1 =>
    if inB (r, c) then
      if cellv b (r, c) = -p then
        (runLen b p dr dc (r + dr) (c + dc) fuel).map (· + 1)
      else if cellv b (r, c) = p then some 0
      else none
    else none

/-- The first `n` cells of the ray starting at `(r, c)`. -/
def raySeg (dr dc : Int) : Int → Int → Nat → List Move
  | _, _, 0 => []
  | r, c, n+1 => (r, c) :: raySeg dr dc (r + dr) (c + dc) n

/-- Claim-language description of the disks flipped in one direction by a
disk placed on `m`: the cells of a nonempty contiguous run of opponent disks
starting adjacent to `m` and terminated by a same-player disk. -/
def flipsSpecDir (b : Board) (p : Int) (m d q : Move) : Prop :=
  ∃ n : Nat, 1 ≤ n ∧
    (∀ j, 1 ≤ j → j ≤ n → inB (posAt m d j) ∧ cellv b (posAt m d j) = -p) ∧
    inB (posAt m d (n + 1)) ∧ cellv b (posAt m d (n + 1)) = p ∧
    ∃ k, 1 ≤ k ∧ k ≤ n ∧ q = posAt m d k

/-- Claim-language description of the full flip set of a move: a cell
flipped in some of the 8 directions. -/
def flipsSpec (b : Board) (p : Int) (m q : Move) : Prop :=
  ∃ d ∈ directions, flipsSpecDir b p m d q

/-- `Othello.is_game_over`: neither side has a legal move. -/
def gameOver (b : Board) : Prop := validMoves b 1 = [] ∧ validMoves b (-1) = []

instance (b : Board) : Decidable (gameOver b) := by unfold gameOver; infer_instance

/-- The fixed 4-disk opening of `Othello.__init__`: white on (3,3) and
(4,4), black on (3,4) and (4,3). -/
def initialBoard : Board :=
  [[0, 0, 0, 0, 0, 0, 0, 0],
   [0, 0, 0, 0, 0, 0, 0, 0],
   [0, 0, 0, 0, 0, 0, 0, 0],
   [0, 0, 0, -1, 1, 0, 0, 0],
   [0, 0, 0, 1, -1, 0, 0, 0],
   [0, 0, 0, 0, 0, 0, 0, 0],
   [0, 0, 0, 0, 0, 0, 0, 0],
   [0, 0, 0, 0, 0, 0, 0, 0]]

/-- Declarative description of a legal move shared by both move generators:
the target cell is an empty board cell, and in some direction it is followed
by a nonempty contiguous run of opponent disks terminated by a same-player
disk. -/
def legalSpec (b : Board) (p : Int) (m : Move) : Prop :=
  inB m ∧ cellv b m = 0 ∧ ∃ d ∈ directions, ∃ n : Nat, 1 ≤ n ∧
    (∀ j, 1 ≤ j → j ≤ n → inB (posAt m d j) ∧ cellv b (posAt m d j) = -p) ∧
    inB (posAt m d (n + 1)) ∧ cellv b (posAt m d (n + 1)) = p

/-- The inner `while` loop of `find_valid_moves` in `utils.py`: advance while
the current cell is an in-bounds opponent disk, returning the first cell
that is not. -/
def chaseOpp (b : Board) (p dr dc : Int) : Int → Int → Nat → Move
  | r, c, 0 => (r, c)
  | r, c, fuel+1 =>
    if inB (r, c) ∧ cellv b (r, c) = -p then chaseOpp b p dr dc (r + dr) (c + dc) fuel
    else (r, c)

/-- One direction test of `find_valid_moves` in `utils.py`: the first
neighbor must be an in-bounds opponent disk, and the cell reached after
skipping the opponent run must be an in-bounds disk of the player. -/
def dirOk (b : Board) (p : Int) (m d : Move) : Bool :=
  if inB (m.1 + d.1, m.2 + d.2) ∧ cellv b (m.1 + d.1, m.2 + d.2) = -p then
    decide (inB (chaseOpp b p d.1 d.2 (m.1 + d.1) (m.2 + d.2) 16) ∧
      cellv b (chaseOpp b p d.1 d.2 (m.1 + d.1) (m.2 + d.2) 16) = p)
  else false

/-- `find_valid_moves(board, player)` from `utils.py`: scan every empty cell
and keep it when some direction passes the run test. -/
def find_valid_moves (b : Board) (p : Int) : List Move :=
  cmap (fun r => cmap (fun c =>
    if cellv b (r, c) = 0 then
      if directions.any (fun d => dirOk b p (r, c) d) then [(r, c)] else []
    else []) rng8) rng8

/-- Scores of `MinMaxPlayer.minimax`: heuristic values extended with the
sentinels `float('-inf')` and `float('inf')` used to seed `max_eval`,
`min_eval`, `alpha` and `beta`.  Heuristic values are modelled as rationals. -/
abbrev EScore := WithBot (WithTop Rat)

/-- A finite heuristic value as a score. -/
def toE (q : Rat) : EScore := ((q : WithTop Rat) : WithBot (WithTop Rat))

/-- The maximizing loop of `MinMaxPlayer.minimax`: track the best score and
move, raise `alpha`, and break as soon as `alpha >= beta`.  `f` is the
recursive evaluation of a child position at depth one lower. -/
def abMaxLoop (f : Board → EScore → EScore → EScore) (mover : Int) (b : Board) :
    List Move → EScore → Option Move → EScore → EScore → EScore × Option Move
  | [], maxEval, best, _, _ => (maxEval, best)
  | mv :: rest, maxEval, best, alpha, beta =>
    let e := f (applyMove b mv mover).2 alpha beta
    let pair := if maxEval < e then (e, some mv) else (maxEval, best)
    let alpha2 := max alpha e
    if beta ≤ alpha2 then pair
    else abMaxLoop f mover b rest pair.1 pair.2 alpha2 beta

/-- The minimizing loop of `MinMaxPlayer.minimax`: track the worst score and
move, lower `beta`, and break as soon as `beta <= alpha`. -/
def abMinLoop (f : Board → EScore → EScore → EScore) (mover : Int) (b : Board) :
    List Move → EScore → Option Move → EScore → EScore → EScore × Option Move
  | [], minEval, best, _, _ => (minEval, best)
  | mv :: rest, minEval, best, alpha, beta =>
    let e := f (applyMove b mv mover).2 alpha beta
    let pair := if e < minEval then (e, some mv) else (minEval, best)
    let beta2 := min beta e
    if beta2 ≤ alpha then pair
    else abMinLoop f mover b rest pair.1 pair.2 alpha beta2

/-- `MinMaxPlayer.minimax(game, depth, alpha, beta, maximizing)` for an
agent of color `color` with heuristic `h` (a heuristic evaluated at the
agent's own color, hence a function of the board alone): returns the score
and the best move. -/
def minimaxAB (h : Board → Rat) (color : Int) :
    Nat → Board → EScore → EScore → Bool → EScore × Option Move
  | 0, b, _, _, _ => (toE (h b), none)
  | d+1, b, alpha, beta, mx =>
    if gameOver b then (toE (h b), none)
    else
      let moves := validMoves b (if mx then color else -color)
      if moves = [] then ((minimaxAB h color d b alpha beta (!mx)).1, none)
      else if mx then
        abMaxLoop (fun b2 a2 b3 => (minimaxAB h color d b2 a2 b3 false).1)
          color b moves ⊥ none alpha beta
      else
        abMinLoop (fun b2 a2 b3 => (minimaxAB h color d b2 a2 b3 true).1)
          (-color) b moves ⊤ none alpha beta

/-- The maximizing loop with the pruning `break` removed; everything else,
including the `alpha` updates passed to recursive calls, is unchanged. -/
def npMaxLoop (f : Board → EScore → EScore → EScore) (mover : Int) (b : Board) :
    List Move → EScore → Option Move → EScore → EScore → EScore × Option Move
  | [], maxEval, best, _, _ => (maxEval, best)
  | mv :: rest, maxEval, best, alpha, beta =>
    let e := f (applyMove b mv mover).2 alpha beta
    let pair := if maxEval < e then (e, some mv) else (maxEval, best)
    let alpha2 := max alpha e
    npMaxLoop f mover b rest pair.1 pair.2 alpha2 beta

/-- The minimizing loop with the pruning `break` removed. -/
def npMinLoop (f : Board → EScore → EScore → EScore) (mover : Int) (b : Board) :
    List Move → EScore → Option Move → EScore → EScore → EScore × Option Move
  | [], minEval, best, _, _ => (minEval, best)
  | mv :: rest, minEval, best, alpha, beta =>
    let e := f (applyMove b mv mover).2 alpha beta
    let pair := if e < minEval then (e, some mv) else (minEval, best)
    let beta2 := min beta e
    npMinLoop f mover b rest pair.1 pair.2 alpha beta2

/-- `MinMaxPlayer.minimax` with the two pruning `break` statements removed:
the identical recursion, except that every legal move is examined. -/
def minimaxNoPrune (h : Board → Rat) (color : Int) :
    Nat → Board → EScore → EScore → Bool → EScore × Option Move
  | 0, b, _, _, _ => (toE (h b), none)
  | d+1, b, alpha, beta, mx =>
    if gameOver b then (toE (h b), none)
    else
      let moves := validMoves b (if mx then color else -color)
      if moves = [] then ((minimaxNoPrune h color d b alpha beta (!mx)).1, none)
      else if mx then
        npMaxLoop (fun b2 a2 b3 => (minimaxNoPrune h color d b2 a2 b3 false).1)
          color b moves ⊥ none alpha beta
      else
        npMinLoop (fun b2 a2 b3 => (minimaxNoPrune h color d b2 a2 b3 true).1)
          (-color) b moves ⊤ none alpha beta

/-- The plain minimax value: the window-free max/min recursion. -/
def mmVal (h : Board → Rat) (color : Int) : Nat → Board → Bool → EScore
  | 0, b, _ => toE (h b)
  | d+1, b, mx =>
    if gameOver b then toE (h b)
    else
      let mover : Int := if mx then color else -color
      let moves := validMoves b mover
      if moves = [] then mmVal h color d b (!mx)
      else if mx then
        (moves.map (fun mv => mmVal h color d (applyMove b mv mover).2 false)).foldl max ⊥
      else
        (moves.map (fun mv => mmVal h color d (applyMove b mv mover).2 true)).foldl min ⊤

/-- The classical fail-soft alpha-beta window property relating a pruned
score `g` in window `(alpha, beta)` to the true minimax value `v`: inside
the window the score is exact, outside it is a sound bound. -/
def KMprop (g alpha beta v : EScore) : Prop :=
  (g ≤ alpha → v ≤ g) ∧ (alpha < g → g < beta → g = v) ∧ (beta ≤ g → g ≤ v)

/-- A board on which BLACK (+1) has no legal move while WHITE does: row 0
holds BLACK, WHITE, BLACK on columns 4, 5, 6. -/
def passBoard : Board :=
  [[0, 0, 0, 0, 1, -1, 1, 0],
   [0, 0, 0, 0, 0, 0, 0, 0],
   [0, 0, 0, 0, 0, 0, 0, 0],
   [0, 0, 0, 0, 0, 0, 0, 0],
   [0, 0, 0, 0, 0, 0, 0, 0],
   [0, 0, 0, 0, 0, 0, 0, 0],
   [0, 0, 0, 0, 0, 0, 0, 0],
   [0, 0, 0, 0, 0, 0, 0, 0]]

/-- All 64 board coordinates, row by row. -/
def allCells : List Move := cmap (fun r => rng8.map (fun c => (r, c))) rng8

/-- The number of disks of both colors on the board, as counted by
`np.sum(board == 1) + np.sum(board == -1)` for `p = 1`. -/
def totalDisks (b : Board) (p : Int) : Nat :=
  List.countP (fun q => decide (cellv b q = p ∨ cellv b q = -p)) allCells

/-- A full game state as held by an `Othello` object: the grid and the side
to move (`current_player`). -/
structure GState where
  board : Board
  currentPlayer : Int
deriving DecidableEq

/-- `MCTSAgent.get_node_key(game_state)`: a canonical key built from
`tuple(map(tuple, game_state.board))`, i.e. from the grid contents only. -/
def getNodeKey (s : GState) : Board := s.board

/-- Python's `max(best :: rest, key=f)`: the first element of maximal
`f`-value (a later element replaces the current best only when strictly
greater). -/
def pyMax (f : Board → Nat) : Board → List Board → Board
  | best, [] => best
  | best, k :: rest => pyMax f (if f best < f k then k else best) rest

/-- The best root child of `MCTSAgent.timed_search`: the child key with the
most visits, or `none` when the root has no children. -/
def bestChildKey (visits : Board → Nat) : List Board → Option Board
  | [] => none
  | k :: rest => some (pyMax visits k rest)

/-- The move-selection epilogue of `MCTSAgent.timed_search` (lines 193-208):
if the root has no children return `None`; otherwise pick the most-visited
child key and return the first legal root move whose application (with the
side-to-move flip) produces that key. -/
def selectBestMove (children : Board → List Board) (visits : Board → Nat)
    (s : GState) : Option Move :=
  match bestChildKey visits (children (getNodeKey s)) with
  | none => none
  | some bk =>
    (validMoves s.board s.currentPlayer).find? (fun mv =>
      decide (getNodeKey ⟨(applyMove s.board mv s.currentPlayer).2,
        -s.currentPlayer⟩ = bk))

/-- Concrete root children map used to exercise `selectBestMove`: the
opening position has a single explored child, the result of BLACK playing
(2,3). -/
def mctsChildrenW : Board → List Board :=
  fun bb => if bb = initialBoard then [(applyMove initialBoard (2, 3) 1).2] else []

/-- Concrete root state for the `selectBestMove` witness. -/
def mctsStateW : GState := ⟨initialBoard, 1⟩

/-- `find_stable_disks(board, player)` from `utils.py`: the number of the
player's disks none of whose in-bounds neighbors is empty (the 8 x 8 spans
come from `len(board)` on the well-formed grid). -/
def find_stable_disks (b : Board) (p : Int) : Nat :=
  List.countP (fun q =>
    decide (cellv b q = p) &&
    !(directions.any (fun d => decide (inB (q.1 + d.1, q.2 + d.2) ∧
      cellv b (q.1 + d.1, q.2 + d.2) = 0)))) allCells

/-- `find_unstable_disks(board, player, opponent_moves)` from `utils.py`:
for each opponent move, count the directions whose neighboring cell holds
the player's disk, and sum the counts over all moves. -/
def find_unstable_disks (b : Board) (p : Int) (oppMoves : List Move) : Nat :=
  (oppMoves.map (fun mv =>
    List.countP (fun d => decide (inB (mv.1 + d.1, mv.2 + d.2) ∧
      cellv b (mv.1 + d.1, mv.2 + d.2) = p)) directions)).sum

/-- `stability_heuristic(game, player)` from `heuristics.py`, with float
arithmetic modelled over the rationals. -/
def stability_heuristic (b : Board) (p : Int) : Rat :=
  let player_stable := find_stable_disks b p
  let opponent_stable := find_stable_disks b (-p)
  let player_unstable := find_unstable_disks b p (validMoves b (-p))
  let opponent_unstable := find_unstable_disks b (-p) (validMoves b p)
  let stable_diff : Rat :=
    if player_stable + opponent_stable ≠ 0 then
      100 * ((player_stable : Rat) - (opponent_stable : Rat)) /
        ((player_stable : Rat) + (opponent_stable : Rat))
    else 0
  let unstable_diff : Rat :=
    if player_unstable + opponent_unstable ≠ 0 then
      100 * ((opponent_unstable : Rat) - (player_unstable : Rat)) /
        ((player_unstable : Rat) + (opponent_unstable : Rat))
    else 0
  (2 * stable_diff + 1 * unstable_diff) / (2 + 1)

/-- A disk all of whose existing neighboring cells are non-empty — the
claim-language stability notion. -/
def stableDisk (b : Board) (q : Move) : Prop :=
  ∀ d ∈ directions, inB (posAt q d 1) → cellv b (posAt q d 1) ≠ 0

instance (b : Board) (q : Move) : Decidable (stableDisk b q) := by
  unfold stableDisk
  infer_instance

/-- Claim-language stable-disk count of one side. -/
def stableCount (b : Board) (p : Int) : Nat :=
  List.countP (fun q => decide (cellv b q = p ∧ stableDisk b q)) allCells

/-- Claim-language unstable-disk count of one side: the number of the
side's disks adjacent to at least one cell of the given opponent move set
(each disk counted once). -/
def unstableDisksSpec (b : Board) (p : Int) (oppMoves : List Move) : Nat :=
  List.countP (fun q => decide (cellv b q = p ∧ ∃ mv ∈ oppMoves, ∃ d ∈ directions,
    posAt mv d 1 = q)) allCells

/-- Claim-language unstable incidence count of one side: one count per
(opponent move, direction) pair whose neighboring cell holds the side's
disk. -/
def unstablePairs (b : Board) (p : Int) (oppMoves : List Move) : Nat :=
  (oppMoves.map (fun mv =>
    List.countP (fun d => decide (inB (posAt mv d 1) ∧
      cellv b (posAt mv d 1) = p)) directions)).sum

/-- The stability score exactly as claimed: weight-2 stable-disk difference
plus weight-1 unstable-disk difference with the unstable count per claim
(number of distinct unstable disks), averaged by total weight. -/
def stability_claim (b : Board) (p : Int) : Rat :=
  let ps := stableCount b p
  let os := stableCount b (-p)
  let pu := unstableDisksSpec b p (validMoves b (-p))
  let ou := unstableDisksSpec b (-p) (validMoves b p)
  let sDiff : Rat :=
    if ps + os ≠ 0 then 100 * ((ps : Rat) - (os : Rat)) / ((ps : Rat) + (os : Rat)) else 0
  let uDiff : Rat :=
    if pu + ou ≠ 0 then 100 * ((ou : Rat) - (pu : Rat)) / ((pu : Rat) + (ou : Rat)) else 0
  (2 * sDiff + 1 * uDiff) / (2 + 1)

/-- The stability score with the unstable counts amended to incidence
counts (one per adjacent opponent-move/direction pair), which is what the
loop in `find_unstable_disks` computes. -/
def stability_amended (b : Board) (p : Int) : Rat :=
  let ps := stableCount b p
  let os := stableCount b (-p)
  let pu := unstablePairs b p (validMoves b (-p))
  let ou := unstablePairs b (-p) (validMoves b p)
  let sDiff : Rat :=
    if ps + os ≠ 0 then 100 * ((ps : Rat) - (os : Rat)) / ((ps : Rat) + (os : Rat)) else 0
  let uDiff : Rat :=
    if pu + ou ≠ 0 then 100 * ((ou : Rat) - (pu : Rat)) / ((pu : Rat) + (ou : Rat)) else 0
  (2 * sDiff + 1 * uDiff) / (2 + 1)

/-- A board where one BLACK disk is adjacent to two distinct WHITE legal
moves: BLACK on (1,1), WHITE on (1,2) and (2,1). -/
def unstableBoard : Board :=
  [[0, 0, 0, 0, 0, 0, 0, 0],
   [0, 1, -1, 0, 0, 0, 0, 0],
   [0, -1, 0, 0, 0, 0, 0, 0],
   [0, 0, 0, 0, 0, 0, 0, 0],
   [0, 0, 0, 0, 0, 0, 0, 0],
   [0, 0, 0, 0, 0, 0, 0, 0],
   [0, 0, 0, 0, 0, 0, 0, 0],
   [0, 0, 0, 0, 0, 0, 0, 0]]

/-!
## Heap model for the frame property of the two search agents

To give content to the claim that a search never mutates the caller's live
game, Python's object store is modelled explicitly: a heap is a list of
game states, an object reference is an index, `Othello.copy()` allocates a
fresh cell holding a value copy of the grid and side to move (`np.copy`),
and the in-place mutations (`apply_move` writing the grid,
`current_player *= -1`) overwrite the indexed cell.  A search that aliased
the caller's object instead of copying would fail the frame theorems below.

Two numeric details of `mcts.py` are abstracted by universally quantified
oracles, which only strengthens the frame statements: the UCB1 argmax of
`selection` (floating-point `log`/`sqrt`) becomes an arbitrary choice
function over the child keys, and every `random.choice` draws the index
`rng ctr % len` from an arbitrary integer stream.  The unbounded `while`
loops (selection recursion, rollout to a terminal state) carry an explicit
fuel and the wall-clock budget of `timed_search` becomes an iteration
count; the frame theorems hold for every fuel and budget.
-/

/-- Python's object heap, restricted to `Othello` game objects. -/
abbrev Heap := List GState

/-- Dereference an object index. -/
def hget (h : Heap) (i : Nat) : GState := nthD ⟨[], 0⟩ h i

/-- `Othello.copy()`: allocate a fresh object holding `np.copy(board)` and
the same `current_player`; returns the new reference and heap. -/
def copyH (h : Heap) (i : Nat) : Nat × Heap := (h.length, h ++ [hget h i])

/-- `apply_move` called on the object `i`: mutates its grid in place. -/
def applyMoveH (h : Heap) (i : Nat) (mv : Move) (p : Int) : Bool × Heap :=
  let s := hget h i
  let r := applyMove s.board mv p
  (r.1, setIdx h i ⟨r.2, s.currentPlayer⟩)

/-- `state.current_player *= -1` on the object `i`. -/
def flipPlayerH (h : Heap) (i : Nat) : Heap :=
  let s := hget h i
  setIdx h i ⟨s.board, -s.currentPlayer⟩

/-- The maximizing loop of `minimax` over the heap: each iteration copies
the game, applies the move to the copy and recurses on it. -/
def abMaxLoopH (f : Heap → Nat → EScore → EScore → EScore × Heap) (mover : Int)
    (srcIdx : Nat) :
    List Move → Heap → EScore → Option Move → EScore → EScore →
      (EScore × Option Move) × Heap
  | [], h, maxEval, best, _, _ => ((maxEval, best), h)
  | mv :: rest, h, maxEval, best, alpha, beta =>
    let ch := copyH h srcIdx
    let h2 := (applyMoveH ch.2 ch.1 mv mover).2
    let r := f h2 ch.1 alpha beta
    let pair := if maxEval < r.1 then (r.1, some mv) else (maxEval, best)
    let alpha2 := max alpha r.1
    if beta ≤ alpha2 then (pair, r.2)
    else abMaxLoopH f mover srcIdx rest r.2 pair.1 pair.2 alpha2 beta

/-- The minimizing loop of `minimax` over the heap. -/
def abMinLoopH (f : Heap → Nat → EScore → EScore → EScore × Heap) (mover : Int)
    (srcIdx : Nat) :
    List Move → Heap → EScore → Option Move → EScore → EScore →
      (EScore × Option Move) × Heap
  | [], h, minEval, best, _, _ => ((minEval, best), h)
  | mv :: rest, h, minEval, best, alpha, beta =>
    let ch := copyH h srcIdx
    let h2 := (applyMoveH ch.2 ch.1 mv mover).2
    let r := f h2 ch.1 alpha beta
    let pair := if r.1 < minEval then (r.1, some mv) else (minEval, best)
    let beta2 := min beta r.1
    if beta2 ≤ alpha then (pair, r.2)
    else abMinLoopH f mover srcIdx rest r.2 pair.1 pair.2 alpha beta2

/-- `MinMaxPlayer.minimax` over the heap: reads the game through its
reference and explores children on fresh copies. -/
def minimaxH (hr : Board → Rat) (color : Int) :
    Nat → Heap → Nat → EScore → EScore → Bool → (EScore × Option Move) × Heap
  | 0, h, i, _, _, _ => ((toE (hr (hget h i).board), none), h)
  | d+1, h, i, alpha, beta, mx =>
    if gameOver (hget h i).board then ((toE (hr (hget h i).board), none), h)
    else
      let moves := validMoves (hget h i).board (if mx then color else -color)
      if moves = [] then
        let r := minimaxH hr color d h i alpha beta (!mx)
        ((r.1.1, none), r.2)
      else if mx then
        abMaxLoopH (fun h2 j a2 b2 =>
            let r := minimaxH hr color d h2 j a2 b2 false
            (r.1.1, r.2))
          color i moves h ⊥ none alpha beta
      else
        abMinLoopH (fun h2 j a2 b2 =>
            let r := minimaxH hr color d h2 j a2 b2 true
            (r.1.1, r.2))
          (-color) i moves h ⊤ none alpha beta

/-- `MinMaxPlayer.get_move(game)` over the heap: run `minimax` at the
configured depth with the infinite window and return the best move. -/
def minimaxGetMoveH (hr : Board → Rat) (color : Int) (depth : Nat) (h : Heap)
    (i : Nat) : Option Move × Heap :=
  let r := minimaxH hr color depth h i ⊥ ⊤ true
  (r.1.2, r.2)

/-- One entry of `MCTSAgent.node_info`: the `untried_moves` field may be
absent (`none`, a freshly materialized `{}`), present but `None`
(`some none`, a registered child), or an actual list. -/
structure NodeRec where
  untried : Option (Option (List Move))
  visits : Nat
  wins : Rat
deriving DecidableEq

/-- The MCTS statistics tree: the insertion-ordered dictionaries
`children` and `node_info`, keyed by canonical board keys. -/
structure TreeState where
  childrenT : List (Board × List Board)
  nodeInfoT : List (Board × NodeRec)

/-- `self.children[k]` (a defaultdict: absent keys read as `[]`). -/
def childrenGet (t : TreeState) (k : Board) : List Board :=
  match t.childrenT.find? (fun kv => decide (kv.1 = k)) with
  | some kv => kv.2
  | none => []

/-- Append a child key to `self.children[k]`. -/
def childrenApp (t : TreeState) (k ck : Board) : TreeState :=
  if (t.childrenT.find? (fun kv => decide (kv.1 = k))).isSome then
    ⟨t.childrenT.map (fun kv => if kv.1 = k then (kv.1, kv.2 ++ [ck]) else kv),
      t.nodeInfoT⟩
  else ⟨t.childrenT ++ [(k, [ck])], t.nodeInfoT⟩

/-- `self.node_info[k]`, when present. -/
def lookupNI (t : TreeState) (k : Board) : Option NodeRec :=
  (t.nodeInfoT.find? (fun kv => decide (kv.1 = k))).map (fun kv => kv.2)

/-- Store `self.node_info[k] = rec` (update or insert). -/
def nodeInfoSet (t : TreeState) (k : Board) (rec : NodeRec) : TreeState :=
  if (t.nodeInfoT.find? (fun kv => decide (kv.1 = k))).isSome then
    ⟨t.childrenT, t.nodeInfoT.map (fun kv => if kv.1 = k then (kv.1, rec) else kv)⟩
  else ⟨t.childrenT, t.nodeInfoT ++ [(k, rec)]⟩

/-- `self.node_info[k]['visits']` for a registered node. -/
def visitsGet (t : TreeState) (k : Board) : Nat :=
  ((lookupNI t k).getD ⟨none, 0, 0⟩).visits

/-- The matching loop of `MCTSAgent.selection`: for each legal move, copy
the game, apply the move and flip the mover on the copy; on the first copy
whose key equals the UCB-selected child key, continue the selection there
(`sel`); if no move matches, fall back to a copy of the current state. -/
def selLoopH (sel : Heap → Nat → Nat × Heap) (bk : Board) :
    List Move → Heap → Nat → Nat × Heap
  | [], h, i => copyH h i
  | mv :: rest, h, i =>
    let ch := copyH h i
    let h2 := (applyMoveH ch.2 ch.1 mv (hget ch.2 ch.1).currentPlayer).2
    let h3 := flipPlayerH h2 ch.1
    if (hget h3 ch.1).board = bk then sel h3 ch.1
    else selLoopH sel bk rest h3 i

/-- `MCTSAgent.selection` over the heap, with the UCB1 argmax abstracted
as the choice function `ucb` and an explicit recursion fuel. -/
def selectionH (ucb : List Board → Board) (t : TreeState) :
    Nat → Heap → Nat → Nat × Heap
  | 0, h, i => copyH h i
  | fuel+1, h, i =>
    let k := (hget h i).board
    if lookupNI t k = none ∨ childrenGet t k = [] then copyH h i
    else
      selLoopH (selectionH ucb t fuel) (ucb (childrenGet t k))
        (validMoves (hget h i).board (hget h i).currentPlayer) h i

/-- `MCTSAgent.expansion` over the heap: lazily fill in the untried-move
list, and either report the state unexpandable (returning a copy) or play
one untried move on a fresh copy and register the child.  Returns the new
reference and heap, the updated tree and the advanced random counter. -/
def expansionH (rng : Nat → Nat) (ctr : Nat) (t : TreeState) (h : Heap) (i : Nat) :
    (Nat × Heap) × TreeState × Nat :=
  let k := (hget h i).board
  let r0 := (lookupNI t k).getD ⟨none, 0, 0⟩
  let r1 : NodeRec :=
    if r0.untried = none then
      ⟨some (some (validMoves (hget h i).board (hget h i).currentPlayer)), 0, 0⟩
    else r0
  let t1 := nodeInfoSet t k r1
  match r1.untried with
  | some (some (mv0 :: restMoves)) =>
    let mv := nthD mv0 (mv0 :: restMoves) (rng ctr % (mv0 :: restMoves).length)
    let t2 := nodeInfoSet t1 k ⟨some (some ((mv0 :: restMoves).erase mv)),
      r1.visits, r1.wins⟩
    let ch := copyH h i
    let h2 := (applyMoveH ch.2 ch.1 mv (hget ch.2 ch.1).currentPlayer).2
    let h3 := flipPlayerH h2 ch.1
    let nk := (hget h3 ch.1).board
    let t3 := nodeInfoSet (childrenApp t2 k nk) nk ⟨some none, 0, 0⟩
    ((ch.1, h3), t3, ctr + 1)
  | _ => (copyH h i, t1, ctr)

/-- The number of disks of one color, `np.sum(board == p)`. -/
def countCells (b : Board) (p : Int) : Nat :=
  List.countP (fun q => decide (cellv b q = p)) allCells

/-- The random-playout loop of `MCTSAgent.simulation`: while the game is
not over, play a random legal move of the side to move (if it has one) on
the object `i` and flip the side to move. -/
def simLoopH (rng : Nat → Nat) : Nat → Nat → Heap → Nat → Heap × Nat
  | 0, ctr, h, _ => (h, ctr)
  | fuel+1, ctr, h, i =>
    if gameOver (hget h i).board then (h, ctr)
    else
      let moves := validMoves (hget h i).board (hget h i).currentPlayer
      match moves with
      | [] => simLoopH rng fuel ctr (flipPlayerH h i) i
      | mv0 :: restMoves =>
        let mv := nthD mv0 (mv0 :: restMoves) (rng ctr % (mv0 :: restMoves).length)
        simLoopH rng fuel (ctr + 1)
          (flipPlayerH (applyMoveH h i mv (hget h i).currentPlayer).2 i) i

/-- `MCTSAgent.simulation` over the heap: roll out a fresh copy of the
state to (fuel-bounded) termination and score the final disk counts from
the perspective of the side to move at the start of the rollout. -/
def simulationH (rng : Nat → Nat) (fuel ctr : Nat) (h : Heap) (i : Nat) :
    Rat × Heap × Nat :=
  let ch := copyH h i
  let startPlayer := (hget ch.2 ch.1).currentPlayer
  let r := simLoopH rng fuel ctr ch.2 ch.1
  let bcount := countCells (hget r.1 ch.1).board 1
  let wcount := countCells (hget r.1 ch.1).board (-1)
  let res : Rat :=
    if startPlayer = 1 then
      if wcount < bcount then 1 else if bcount = wcount then 1 / 2 else 0
    else
      if bcount < wcount then 1 else if bcount = wcount then 1 / 2 else 0
  (res, r.1, r.2)

/-- The first parent of `k` in insertion order: the first tree key whose
child list contains `k` (`MCTSAgent.backpropagation` recomputes parents by
scanning `self.children.items()`). -/
def findParent (t : TreeState) (k : Board) : Option Board :=
  (t.childrenT.find? (fun kv => decide (k ∈ kv.2))).map (fun kv => kv.1)

/-- `MCTSAgent.backpropagation`: climb the parent chain, crediting visits
and the alternating result; pure on the statistics tree. -/
def backpropH : Nat → TreeState → Option Board → Rat → TreeState
  | 0, t, _, _ => t
  | _+1, t, none, _ => t
  | fuel+1, t, some k, res =>
    let r := (lookupNI t k).getD ⟨none, 0, 0⟩
    let t2 := nodeInfoSet t k ⟨r.untried, r.visits + 1, r.wins + res⟩
    backpropH fuel t2 (findParent t2 k) (1 - res)

/-- The rollout repetitions of one search iteration
(`for _ in range(self.nb_rollouts)`): simulate from a fresh copy of the
expanded state and backpropagate from its key. -/
def rolloutsH (rng : Nat → Nat) (simFuel bpFuel : Nat) (expKey : Board)
    (expIdx : Nat) : Nat → TreeState → Nat → Heap → TreeState × Nat × Heap
  | 0, t, ctr, h => (t, ctr, h)
  | n+1, t, ctr, h =>
    let sim := simulationH rng simFuel ctr h expIdx
    let t2 := backpropH bpFuel t (some expKey) sim.1
    rolloutsH rng simFuel bpFuel expKey expIdx n t2 sim.2.2 sim.2.1

/-- One select/expand/simulate/backpropagate cycle of
`MCTSAgent.timed_search`, operating on copies of the root state. -/
def mctsIterationH (ucb : List Board → Board) (rng : Nat → Nat)
    (selFuel simFuel bpFuel nroll : Nat) (t : TreeState) (ctr : Nat) (h : Heap)
    (rootIdx : Nat) : TreeState × Nat × Heap :=
  let c1 := copyH h rootIdx
  let s1 := selectionH ucb t selFuel c1.2 c1.1
  let c2 := copyH s1.2 s1.1
  let e1 := expansionH rng ctr t c2.2 c2.1
  let expKey := (hget e1.1.2 e1.1.1).board
  rolloutsH rng simFuel bpFuel expKey e1.1.1 nroll e1.2.1 e1.2.2 e1.1.2

/-- `MCTSAgent.timed_search` over the heap, the wall-clock budget replaced
by an iteration count: run the search cycles, then select the most-visited
root child and recover its move from the root state. -/
def timedSearchH (ucb : List Board → Board) (rng : Nat → Nat)
    (selFuel simFuel bpFuel nroll : Nat) :
    Nat → TreeState → Nat → Heap → Nat → Option Move × Heap
  | 0, t, _, h, rootIdx =>
    (selectBestMove (childrenGet t) (visitsGet t) (hget h rootIdx), h)
  | n+1, t, ctr, h, rootIdx =>
    let r := mctsIterationH ucb rng selFuel simFuel bpFuel nroll t ctr h rootIdx
    timedSearchH ucb rng selFuel simFuel bpFuel nroll n r.1 r.2.1 r.2.2 rootIdx

/-- `MCTSAgent.get_move(game)` with a time budget: a timed search starting
from an empty statistics tree. -/
def mctsGetMoveH (ucb : List Board → Board) (rng : Nat → Nat)
    (selFuel simFuel bpFuel nroll iters : Nat) (h : Heap) (rootIdx : Nat) :
    Option Move × Heap :=
  timedSearchH ucb rng selFuel simFuel bpFuel nroll iters ⟨[], []⟩ 0 h rootIdx

/-- The frame property between two heaps: the second extends the first
without disturbing any object that already existed. -/
def HFrame (h h2 : Heap) : Prop :=
  h.length ≤ h2.length ∧ ∀ j < h.length, hget h2 j = hget h j

/-! ## Basic list lemmas -/

theorem nthD_mem {α : Type} (d : α) : ∀ (l : List α) (i : Nat), i < l.length → nthD d l i ∈ l
  | x :: _, 0, _ => List.mem_cons_self x _
  | _ :: xs, n+1, h =>
    List.mem_cons_of_mem _ (nthD_mem d xs n (by simpa using Nat.lt_of_succ_lt_succ h))

theorem length_setIdx {α : Type} : ∀ (l : List α) (i : Nat) (v : α),
    (setIdx l i v).length = l.length
  | [], _, _ => rfl
  | _ :: _, 0, _ => rfl
  | _ :: xs, n+1, v => by simp [setIdx, length_setIdx xs n v]

theorem nthD_setIdx_self {α : Type} (d : α) :
    ∀ (l : List α) (i : Nat) (v : α), i < l.length → nthD d (setIdx l i v) i = v
  | _ :: _, 0, _, _ => rfl
  | _ :: xs, n+1, v, h =>
    nthD_setIdx_self d xs n v (by simpa using Nat.lt_of_succ_lt_succ h)

theorem nthD_setIdx_ne {α : Type} (d : α) :
    ∀ (l : List α) (i j : Nat) (v : α), j ≠ i → nthD d (setIdx l i v) j = nthD d l j
  | [], _, _, _, _ => rfl
  | _ :: _, 0, 0, _, h => absurd rfl h
  | _ :: _, 0, _+1, _, _ => rfl
  | _ :: _, _+1, 0, _, _ => rfl
  | _ :: xs, i+1, j+1, v, h => nthD_setIdx_ne d xs i j v (fun hji => h (by omega))

theorem mem_setIdx {α : Type} {v : α} :
    ∀ {l : List α} {i : Nat} {x : α}, x ∈ setIdx l i v → x ∈ l ∨ x = v
  | [], _, _, h => absurd h (List.not_mem_nil _)
  | _ :: _, 0, _, h => by
    rcases List.mem_cons.mp h with h | h
    · exact Or.inr h
    · exact Or.inl (List.mem_cons_of_mem _ h)
  | _ :: xs, i+1, x, h => by
    rcases List.mem_cons.mp h with h | h
    · exact Or.inl (h ▸ List.mem_cons_self _ _)
    · rcases mem_setIdx (l := xs) (i := i) h with h | h
      · exact Or.inl (List.mem_cons_of_mem _ h)
      · exact Or.inr h

theorem mem_cmap {α β : Type} (f : α → List β) (y : β) :
    ∀ (l : List α), y ∈ cmap f l ↔ ∃ x ∈ l, y ∈ f x
  | [] => by simp [cmap]
  | x :: xs => by
    simp only [cmap, List.mem_append, mem_cmap f y xs, List.mem_cons]
    constructor
    · rintro (h | ⟨z, hz, hy⟩)
      · exact ⟨x, Or.inl rfl, h⟩
      · exact ⟨z, Or.inr hz, hy⟩
    · rintro ⟨z, (rfl | hz), hy⟩
      · exact Or.inl hy
      · exact Or.inr ⟨z, hz, hy⟩

theorem mem_uniqAux (x : Move) : ∀ (l seen : List Move),
    (x ∈ uniqAux seen l ↔ x ∈ l ∧ x ∉ seen)
  | [], seen => by simp [uniqAux]
  | y :: ys, seen => by
    by_cases hy : y ∈ seen
    · simp only [uniqAux, if_pos hy, mem_uniqAux x ys seen, List.mem_cons]
      constructor
      · rintro ⟨h1, h2⟩; exact ⟨Or.inr h1, h2⟩
      · rintro ⟨(rfl | h1), h2⟩
        · exact absurd hy h2
        · exact ⟨h1, h2⟩
    · simp only [uniqAux, if_neg hy, List.mem_cons, mem_uniqAux x ys (y :: seen)]
      constructor
      · rintro (rfl | ⟨h1, h2⟩)
        · exact ⟨Or.inl rfl, hy⟩
        · exact ⟨Or.inr h1, fun hx => h2 (Or.inr hx)⟩
      · rintro ⟨(rfl | h1), h2⟩
        · exact Or.inl rfl
        · by_cases hxy : x = y
          · exact Or.inl hxy
          · exact Or.inr ⟨h1, fun hx => by
              rcases hx with h | h
              · exact hxy h
              · exact h2 h⟩

theorem mem_uniq (x : Move) (l : List Move) : x ∈ uniq l ↔ x ∈ l := by
  simp [uniq, mem_uniqAux]

/-! ## Cell read/write lemmas -/

theorem WB_row {b : Board} (hb : WB b) {i : Nat} (h : i < 8) :
    (nthD [] b i).length = 8 :=
  hb.2 _ (nthD_mem [] b i (by rw [hb.1]; omega))

theorem WB_setCellP {b : Board} (hb : WB b) {q : Move} (hq : inB q) (v : Int) :
    WB (setCellP b q v) := by
  refine ⟨by rw [setCellP, length_setIdx]; exact hb.1, ?_⟩
  intro row hrow
  rcases mem_setIdx hrow with h | h
  · exact hb.2 _ h
  · subst h
    rw [length_setIdx]
    exact hb.2 _ (nthD_mem _ _ _ (by rw [hb.1]; obtain ⟨h1, h2, _⟩ := hq; omega))

theorem posAt_zero (r c : Int) (d : Move) : posAt (r, c) d 0 = (r, c) := by
  simp [posAt]

theorem posAt_step (r c : Int) (d : Move) (j : Nat) :
    posAt (r + d.1, c + d.2) d j = posAt (r, c) d (j + 1) := by
  simp only [posAt, Prod.mk.injEq]
  push_cast
  constructor <;> ring

/-- Characterization of the `valid_moves` ray walk: starting at `(r, c)` it
returns `some m` exactly when `m` is the first empty cell on the ray, the
cells before it hold opponent disks, and (when no opponent disk was crossed
before entering) at least one opponent disk is crossed. -/
theorem scanDir_char {b : Board} {p : Int} (hp : p ≠ 0) (d : Move) :
    ∀ (fuel : Nat) (r c : Int) (found : Bool) (m : Move),
      (scanDir b p d.1 d.2 r c found fuel = some m ↔
        ∃ k : Nat, k < fuel ∧ (found = false → 1 ≤ k) ∧
          (∀ j, j < k → inB (posAt (r, c) d j) ∧ cellv b (posAt (r, c) d j) = -p) ∧
          inB (posAt (r, c) d k) ∧ cellv b (posAt (r, c) d k) = 0 ∧ m = posAt (r, c) d k)
  | 0, r, c, found, m => by simp [scanDir]
  | fuel+1, r, c, found, m => by
    rw [scanDir]
    by_cases h1 : inB (r, c)
    case neg =>
      rw [if_neg h1]
      constructor
      · intro h; exact Option.noConfusion h
      · rintro ⟨k, hk, hfound, hrun, hin, hcell, hm⟩
        exfalso
        cases k with
        | zero => exact h1 (by simpa [posAt_zero] using hin)
        | succ k' => exact h1 (by simpa [posAt_zero] using (hrun 0 (by omega)).1)
    case pos =>
      rw [if_pos h1]
      by_cases h2 : cellv b (r, c) = -p
      case pos =>
        rw [if_pos h2]
        rw [scanDir_char hp d fuel (r + d.1) (c + d.2) true m]
        constructor
        · rintro ⟨k, hk, -, hrun, hin, hcell, hm⟩
          refine ⟨k + 1, by omega, fun _ => by omega, ?_, ?_, ?_, ?_⟩
          · intro j hj
            cases j with
            | zero => exact ⟨by simpa [posAt_zero] using h1, by simpa [posAt_zero] using h2⟩
            | succ j' => rw [← posAt_step]; exact hrun j' (by omega)
          · rw [← posAt_step]; exact hin
          · rw [← posAt_step]; exact hcell
          · rw [← posAt_step]; exact hm
        · rintro ⟨k, hk, hfound, hrun, hin, hcell, hm⟩
          cases k with
          | zero =>
            exfalso
            rw [posAt_zero] at hcell
            omega
          | succ k' =>
            refine ⟨k', by omega, by intro h; exact absurd h (by simp), ?_, ?_, ?_, ?_⟩
            · intro j hj; rw [posAt_step]; exact hrun (j+1) (by omega)
            · rw [posAt_step]; exact hin
            · rw [posAt_step]; exact hcell
            · rw [posAt_step]; exact hm
      case neg =>
        rw [if_neg h2]
        by_cases h3 : cellv b (r, c) = 0 ∧ found = true
        case pos =>
          rw [if_pos h3, Option.some_inj]
          constructor
          · rintro rfl
            refine ⟨0, by omega, by intro h; exact absurd (h.symm.trans h3.2) (by simp),
              by intro j hj; exact absurd hj (by omega),
              by simpa [posAt_zero] using h1, by simpa [posAt_zero] using h3.1,
              by simp [posAt_zero]⟩
          · rintro ⟨k, hk, hfound, hrun, hin, hcell, hm⟩
            cases k with
            | zero => rw [hm, posAt_zero]
            | succ k' => exact absurd (hrun 0 (by omega)).2 (by simpa [posAt_zero] using h2)
        case neg =>
          rw [if_neg h3]
          constructor
          · intro h; exact Option.noConfusion h
          · rintro ⟨k, hk, hfound, hrun, hin, hcell, hm⟩
            exfalso
            cases k with
            | zero =>
              rw [posAt_zero] at hcell
              cases found with
              | true => exact h3 ⟨hcell, rfl⟩
              | false => exact absurd (hfound rfl) (by omega)
            | succ k' => exact h2 (by simpa [posAt_zero] using (hrun 0 (by omega)).2)

theorem cellv_setCellP {b : Board} (hb : WB b) {t q : Move} (ht : inB t) (hq : inB q)
    (v : Int) : cellv (setCellP b t v) q = if q = t then v else cellv b q := by
  obtain ⟨tr, tc⟩ := t
  obtain ⟨qr, qc⟩ := q
  obtain ⟨htr0, htr8, htc0, htc8⟩ := ht
  obtain ⟨hqr0, hqr8, hqc0, hqc8⟩ := hq
  simp only [cellv, setCellP] at *
  by_cases hrow : qr.toNat = tr.toNat
  · have hrr : qr = tr := by omega
    rw [hrow, nthD_setIdx_self _ _ _ _ (by rw [hb.1]; omega)]
    by_cases hcol : qc.toNat = tc.toNat
    · have hcc : qc = tc := by omega
      rw [hcol, nthD_setIdx_self _ _ _ _ (by rw [WB_row hb (by omega)]; omega)]
      simp [hrr, hcc]
    · have hcc : ¬(qc = tc) := by omega
      rw [nthD_setIdx_ne _ _ _ _ _ hcol]
      simp [hrr, hcc]
  · have hrr : ¬(qr = tr) := by omega
    rw [nthD_setIdx_ne _ _ _ _ _ hrow]
    simp [hrr]

/-! ## Direction and ray facts -/

theorem directions_neg {d : Move} (hd : d ∈ directions) : (-d.1, -d.2) ∈ directions := by
  fin_cases hd <;> decide

theorem posAt_one (r c : Int) (d : Move) : posAt (r, c) d 1 = (r + d.1, c + d.2) := by
  simp [posAt]

theorem posAt_neg (r c : Int) (d : Move) (i j : Nat) (h : j ≤ i) :
    posAt (posAt (r, c) d i) (-d.1, -d.2) j = posAt (r, c) d (i - j) := by
  simp only [posAt, Prod.mk.injEq]
  have hcast : ((i - j : Nat) : Int) = (i : Int) - (j : Int) := by omega
  rw [hcast]
  constructor <;> ring

/-- An in-bounds ray can take at most 7 steps: every direction moves at
least one coordinate by one per step. -/
theorem posAt_bound {d : Move} (hd : d ∈ directions) {r c : Int} (hq : inB (r, c))
    {k : Nat} (hk : inB (posAt (r, c) d k)) : k ≤ 7 := by
  simp only [inB, posAt] at hq hk
  fin_cases hd <;> simp only at hk <;> omega

theorem mem_if_nil {P : Prop} [Decidable P] {l : List Move} {x : Move} :
    (x ∈ if P then l else []) ↔ P ∧ x ∈ l := by
  by_cases h : P
  · rw [if_pos h]; exact ⟨fun hx => ⟨h, hx⟩, fun hx => hx.2⟩
  · rw [if_neg h]; simp [h]


theorem posAt_zeroq (q d : Move) : posAt q d 0 = q := by
  simp [posAt]

theorem posAt_stepq (q d : Move) (j : Nat) :
    posAt (q.1 + d.1, q.2 + d.2) d j = posAt q d (j + 1) := by
  simp only [posAt, Prod.mk.injEq]
  push_cast
  constructor <;> ring

theorem posAt_negq (q d : Move) (i j : Nat) (h : j ≤ i) :
    posAt (posAt q d i) (-d.1, -d.2) j = posAt q d (i - j) := by
  simp only [posAt, Prod.mk.injEq]
  have hcast : ((i - j : Nat) : Int) = (i : Int) - (j : Int) := by omega
  rw [hcast]
  constructor <;> ring

theorem mem_rng8 {r : Int} : r ∈ rng8 ↔ 0 ≤ r ∧ r < 8 := by
  constructor
  · intro h
    fin_cases h <;> omega
  · rintro ⟨h1, h2⟩
    interval_cases r <;> decide

/-! ## Characterization of the two move generators -/

theorem mem_validMovesRaw {b : Board} {p : Int} {m : Move} :
    m ∈ validMovesRaw b p ↔ ∃ r ∈ rng8, ∃ c ∈ rng8,
      cellv b (r, c) = p ∧ ∃ d ∈ directions,
        scanDir b p d.1 d.2 (r + d.1) (c + d.2) false 16 = some m := by
  simp only [validMovesRaw, mem_cmap, mem_if_nil, List.mem_filterMap]

/-- `Othello.valid_moves` computes exactly the declarative legal-move
predicate (for an actual player, `p ≠ 0`). -/
theorem validMoves_iff_legalSpec {b : Board} {p : Int} (hp : p ≠ 0) (m : Move) :
    m ∈ validMoves b p ↔ legalSpec b p m := by
  rw [validMoves, mem_uniq, mem_validMovesRaw]
  constructor
  · rintro ⟨r, hr, c, hc, hcell, d, hd, hs⟩
    rw [scanDir_char hp d 16 (r + d.1) (c + d.2) false m] at hs
    obtain ⟨k, hk16, hk1, hrun, hin, hzero, hm⟩ := hs
    have hk1 := hk1 rfl
    rw [posAt_step] at hin hzero hm
    have hrun2 : ∀ i, 1 ≤ i → i ≤ k →
        inB (posAt (r, c) d i) ∧ cellv b (posAt (r, c) d i) = -p := by
      intro i hi1 hik
      have h := hrun (i - 1) (by omega)
      rw [posAt_step] at h
      rwa [show i - 1 + 1 = i from by omega] at h
    have hbase : inB (r, c) := by
      rw [mem_rng8] at hr hc
      exact ⟨hr.1, hr.2, hc.1, hc.2⟩
    subst hm
    refine ⟨hin, hzero, (-d.1, -d.2), directions_neg hd, k, hk1, ?_, ?_, ?_⟩
    · intro j hj1 hjk
      rw [posAt_neg r c d (k + 1) j (by omega)]
      exact hrun2 (k + 1 - j) (by omega) (by omega)
    · rw [posAt_neg r c d (k + 1) (k + 1) (by omega),
        show k + 1 - (k + 1) = 0 from by omega, posAt_zero]
      exact hbase
    · rw [posAt_neg r c d (k + 1) (k + 1) (by omega),
        show k + 1 - (k + 1) = 0 from by omega, posAt_zero]
      exact hcell
  · rintro ⟨hmIn, hmZero, d, hd, n, hn1, hrun, hsIn, hsCell⟩
    obtain ⟨m1, m2⟩ := m
    have hbound : n ≤ 7 := posAt_bound hd hmIn (hrun n hn1 (le_refl n)).1
    obtain ⟨hs1, hs2, hs3, hs4⟩ := hsIn
    refine ⟨(posAt (m1, m2) d (n + 1)).1, mem_rng8.mpr ⟨hs1, hs2⟩,
      (posAt (m1, m2) d (n + 1)).2, mem_rng8.mpr ⟨hs3, hs4⟩, hsCell,
      (-d.1, -d.2), directions_neg hd, ?_⟩
    rw [scanDir_char hp (-d.1, -d.2) 16]
    refine ⟨n, by omega, fun _ => hn1, ?_, ?_, ?_, ?_⟩
    · intro j hj
      rw [posAt_stepq (posAt (m1, m2) d (n + 1)) (-d.1, -d.2) j,
        posAt_negq (m1, m2) d (n + 1) (j + 1) (by omega),
        show n + 1 - (j + 1) = n - j from by omega]
      exact hrun (n - j) (by omega) (by omega)
    · rw [posAt_stepq (posAt (m1, m2) d (n + 1)) (-d.1, -d.2) n,
        posAt_negq (m1, m2) d (n + 1) (n + 1) (by omega),
        show n + 1 - (n + 1) = 0 from by omega, posAt_zeroq]
      exact hmIn
    · rw [posAt_stepq (posAt (m1, m2) d (n + 1)) (-d.1, -d.2) n,
        posAt_negq (m1, m2) d (n + 1) (n + 1) (by omega),
        show n + 1 - (n + 1) = 0 from by omega, posAt_zeroq]
      exact hmZero
    · rw [posAt_stepq (posAt (m1, m2) d (n + 1)) (-d.1, -d.2) n,
        posAt_negq (m1, m2) d (n + 1) (n + 1) (by omega),
        show n + 1 - (n + 1) = 0 from by omega, posAt_zeroq]

/-- The `find_valid_moves` inner walk, characterized: if the first `k` ray
cells hold in-bounds opponent disks and cell `k` does not, the walk stops at
cell `k`. -/
theorem chaseOpp_reach {b : Board} {p : Int} (d : Move) :
    ∀ (fuel : Nat) (r c : Int) (k : Nat), k ≤ fuel →
      (∀ j, j < k → inB (posAt (r, c) d j) ∧ cellv b (posAt (r, c) d j) = -p) →
      ¬(inB (posAt (r, c) d k) ∧ cellv b (posAt (r, c) d k) = -p) →
      chaseOpp b p d.1 d.2 r c fuel = posAt (r, c) d k
  | 0, r, c, k, hk, _, hstop => by
    have hk0 : k = 0 := by omega
    subst hk0
    rw [posAt_zero]
    rfl
  | fuel+1, r, c, k, hk, hrun, hstop => by
    rw [chaseOpp]
    cases k with
    | zero =>
      rw [posAt_zero] at hstop
      rw [if_neg hstop, posAt_zero]
    | succ k' =>
      have h0 := hrun 0 (by omega)
      rw [posAt_zero] at h0
      rw [if_pos h0]
      have hrun2 : ∀ j, j < k' → inB (posAt (r + d.1, c + d.2) d j) ∧
          cellv b (posAt (r + d.1, c + d.2) d j) = -p := by
        intro j hj
        rw [posAt_step]
        exact hrun (j + 1) (by omega)
      have hstop2 : ¬(inB (posAt (r + d.1, c + d.2) d k') ∧
          cellv b (posAt (r + d.1, c + d.2) d k') = -p) := by
        rw [posAt_step]
        exact hstop
      rw [chaseOpp_reach d fuel (r + d.1) (c + d.2) k' (by omega) hrun2 hstop2,
        posAt_step]

/-- Along any direction there is a stopping cell within 8 steps: either an
out-of-bounds cell or one that does not hold an opponent disk. -/
theorem stop_exists {b : Board} {p : Int} {d : Move} (hd : d ∈ directions) (r c : Int) :
    ∃ k : Nat, k ≤ 8 ∧
      (∀ j, j < k → inB (posAt (r, c) d j) ∧ cellv b (posAt (r, c) d j) = -p) ∧
      ¬(inB (posAt (r, c) d k) ∧ cellv b (posAt (r, c) d k) = -p) := by
  by_cases h0 : inB (posAt (r, c) d 0) ∧ cellv b (posAt (r, c) d 0) = -p
  · have hex : ∃ k : Nat, ¬(inB (posAt (r, c) d k) ∧ cellv b (posAt (r, c) d k) = -p) := by
      refine ⟨8, fun h8 => ?_⟩
      have hbase : inB (r, c) := by rw [posAt_zero] at h0; exact h0.1
      exact absurd (posAt_bound hd hbase h8.1) (by omega)
    refine ⟨Nat.find hex, ?_, ?_, Nat.find_spec hex⟩
    · refine Nat.find_min' hex ?_
      intro h8
      have hbase : inB (r, c) := by rw [posAt_zero] at h0; exact h0.1
      exact absurd (posAt_bound hd hbase h8.1) (by omega)
    · intro j hj
      have := Nat.find_min hex hj
      tauto
  · exact ⟨0, by omega, fun j hj => absurd hj (by omega), h0⟩

/-- One direction test of `find_valid_moves`, characterized: it succeeds
exactly when the direction carries a nonempty opponent run from the cell,
terminated by an in-bounds disk of the player. -/
theorem dirOk_iff {b : Board} {p : Int} (hp : p ≠ 0) {d : Move} (hd : d ∈ directions)
    (m1 m2 : Int) :
    dirOk b p (m1, m2) d = true ↔ ∃ n : Nat, 1 ≤ n ∧
      (∀ j, 1 ≤ j → j ≤ n → inB (posAt (m1, m2) d j) ∧ cellv b (posAt (m1, m2) d j) = -p) ∧
      inB (posAt (m1, m2) d (n + 1)) ∧ cellv b (posAt (m1, m2) d (n + 1)) = p := by
  rw [dirOk]
  constructor
  · intro h
    by_cases hg : inB (m1 + d.1, m2 + d.2) ∧ cellv b (m1 + d.1, m2 + d.2) = -p
    case neg => rw [if_neg hg] at h; exact absurd h (by simp)
    rw [if_pos hg, decide_eq_true_eq] at h
    obtain ⟨k, hk8, hrun, hstop⟩ := stop_exists (b := b) (p := p) hd (m1 + d.1) (m2 + d.2)
    rw [chaseOpp_reach d 16 (m1 + d.1) (m2 + d.2) k (by omega) hrun hstop] at h
    rw [posAt_step] at h
    cases k with
    | zero =>
      exfalso
      rw [show (0 : Nat) + 1 = 1 from rfl, posAt_one] at h
      have := h.2
      have := hg.2
      omega
    | succ k' =>
      refine ⟨k' + 1, by omega, ?_, h.1, h.2⟩
      intro j hj1 hjk
      cases j with
      | zero => omega
      | succ j' =>
        have := hrun j' (by omega)
        rwa [posAt_step] at this
  · rintro ⟨n, hn1, hrun, hin, hcell⟩
    have hg : inB (m1 + d.1, m2 + d.2) ∧ cellv b (m1 + d.1, m2 + d.2) = -p := by
      have := hrun 1 (by omega) (by omega)
      rwa [posAt_one] at this
    rw [if_pos hg, decide_eq_true_eq]
    have hbound : n - 1 ≤ 7 := by
      have hin2 := (hrun n (by omega) (by omega)).1
      have heq : posAt (m1 + d.1, m2 + d.2) d (n - 1) = posAt (m1, m2) d n := by
        rw [posAt_step, show n - 1 + 1 = n from by omega]
      exact posAt_bound hd hg.1 (by rw [heq]; exact hin2)
    have hrun2 : ∀ j, j < n → inB (posAt (m1 + d.1, m2 + d.2) d j) ∧
        cellv b (posAt (m1 + d.1, m2 + d.2) d j) = -p := by
      intro j hj
      rw [posAt_step]
      exact hrun (j + 1) (by omega) (by omega)
    have hstop : ¬(inB (posAt (m1 + d.1, m2 + d.2) d n) ∧
        cellv b (posAt (m1 + d.1, m2 + d.2) d n) = -p) := by
      rw [posAt_step]
      rintro ⟨-, hc2⟩
      rw [hcell] at hc2
      omega
    rw [chaseOpp_reach d 16 (m1 + d.1) (m2 + d.2) n (by omega) hrun2 hstop, posAt_step]
    exact ⟨hin, hcell⟩

theorem find_valid_moves_iff_legalSpec {b : Board} {p : Int} (hp : p ≠ 0) (m : Move) :
    m ∈ find_valid_moves b p ↔ legalSpec b p m := by
  simp only [find_valid_moves, mem_cmap, mem_if_nil, List.mem_singleton, List.any_eq_true]
  constructor
  · rintro ⟨r, hr, c, hc, hcell, ⟨d, hd, hok⟩, rfl⟩
    rw [dirOk_iff hp hd] at hok
    obtain ⟨n, hn1, hrun, hin, hc2⟩ := hok
    rw [mem_rng8] at hr hc
    exact ⟨⟨hr.1, hr.2, hc.1, hc.2⟩, hcell, d, hd, n, hn1, hrun, hin, hc2⟩
  · rintro ⟨hmIn, hmZero, d, hd, n, hn1, hrun, hin, hc2⟩
    obtain ⟨m1, m2⟩ := m
    obtain ⟨h1, h2, h3, h4⟩ := hmIn
    refine ⟨m1, mem_rng8.mpr ⟨h1, h2⟩, m2, mem_rng8.mpr ⟨h3, h4⟩, hmZero,
      ⟨d, hd, ?_⟩, rfl⟩
    rw [dirOk_iff hp hd]
    exact ⟨n, hn1, hrun, hin, hc2⟩

/-! ## The degenerate player 0 has no moves under either generator -/

theorem scanDir_zero {b : Board} (dr dc : Int) :
    ∀ (fuel : Nat) (r c : Int) (found : Bool), scanDir b 0 dr dc r c found fuel = none
  | 0, _, _, _ => rfl
  | fuel+1, r, c, found => by
    rw [scanDir]
    by_cases h1 : inB (r, c)
    · rw [if_pos h1]
      by_cases h2 : cellv b (r, c) = -(0 : Int)
      · rw [if_pos h2]
        exact scanDir_zero dr dc fuel _ _ _
      · rw [if_neg h2, if_neg]
        rintro ⟨hc0, -⟩
        exact h2 (by rw [hc0]; ring)
    · rw [if_neg h1]

theorem validMoves_zero (b : Board) : validMoves b 0 = [] := by
  have h : validMovesRaw b 0 = [] := by
    rw [List.eq_nil_iff_forall_not_mem]
    intro m hm
    rw [mem_validMovesRaw] at hm
    obtain ⟨r, -, c, -, -, d, -, hs⟩ := hm
    rw [scanDir_zero] at hs
    exact Option.noConfusion hs
  rw [validMoves, h]
  rfl

theorem dirOk_zero {b : Board} {d : Move} (hd : d ∈ directions) (m1 m2 : Int) :
    dirOk b 0 (m1, m2) d = false := by
  rw [dirOk]
  by_cases hg : inB (m1 + d.1, m2 + d.2) ∧ cellv b (m1 + d.1, m2 + d.2) = -(0 : Int)
  · rw [if_pos hg]
    obtain ⟨k, hk8, hrun, hstop⟩ := stop_exists (b := b) (p := 0) hd (m1 + d.1) (m2 + d.2)
    rw [chaseOpp_reach d 16 _ _ k (by omega) hrun hstop, decide_eq_false_iff_not]
    rintro ⟨hcIn, hcZero⟩
    exact hstop ⟨hcIn, by rw [hcZero]; ring⟩
  · rw [if_neg hg]

theorem find_valid_moves_zero (b : Board) : find_valid_moves b 0 = [] := by
  rw [List.eq_nil_iff_forall_not_mem]
  intro m hm
  simp only [find_valid_moves, mem_cmap, mem_if_nil, List.mem_singleton,
    List.any_eq_true] at hm
  obtain ⟨r, hr, c, hc, -, ⟨d, hd, hok⟩, -⟩ := hm
  rw [dirOk_zero hd] at hok
  exact Bool.noConfusion hok

/-! ## Claim C10: the two move generators agree -/

/-- C10: for every board grid and player, the standalone move generator
`find_valid_moves` of `utils.py` returns exactly the same set of moves as
the rules engine's `Othello.valid_moves` on the same grid. -/
theorem find_valid_moves_eq_validMoves (b : Board) (p : Int) (m : Move) :
    m ∈ find_valid_moves b p ↔ m ∈ validMoves b p := by
  by_cases hp : p = 0
  · subst hp
    rw [validMoves_zero, find_valid_moves_zero]
  · rw [find_valid_moves_iff_legalSpec hp, validMoves_iff_legalSpec hp]

/-! ## Claim C9: legal moves of the opening position -/

/-- C9: on the fixed 4-disk starting position with BLACK (+1) to move,
`valid_moves` returns exactly the four moves (2,3), (3,2), (4,5), (5,4). -/
theorem initial_legalMoves_black (m : Move) :
    m ∈ validMoves initialBoard 1 ↔
      (m = (2, 3) ∨ m = (3, 2) ∨ m = (4, 5) ∨ m = (5, 4)) := by
  have h : validMoves initialBoard 1 = [(3, 2), (5, 4), (2, 3), (4, 5)] := by decide
  rw [h]
  simp only [List.mem_cons, List.not_mem_nil, or_false]
  tauto

/-! ## Characterization of the apply_move flip walk -/

theorem collectFlips_eq {b : Board} {p : Int} (d : Move) :
    ∀ (fuel : Nat) (r c : Int) (acc : List Move),
      collectFlips b p d.1 d.2 r c acc fuel =
        match runLen b p d.1 d.2 r c fuel with
        | some n => acc ++ raySeg d.1 d.2 r c n
        | none => []
  | 0, _, _, _ => rfl
  | fuel+1, r, c, acc => by
    rw [collectFlips, runLen]
    by_cases h1 : inB (r, c)
    · rw [if_pos h1, if_pos h1]
      by_cases h2 : cellv b (r, c) = -p
      · rw [if_pos h2, if_pos h2,
          collectFlips_eq d fuel (r + d.1) (c + d.2) (acc ++ [(r, c)])]
        rcases hrl : runLen b p d.1 d.2 (r + d.1) (c + d.2) fuel with _ | n
        · rfl
        · simp [raySeg]
      · rw [if_neg h2, if_neg h2]
        by_cases h3 : cellv b (r, c) = p
        · rw [if_pos h3, if_pos h3]
          simp [raySeg]
        · rw [if_neg h3, if_neg h3]
    · rw [if_neg h1, if_neg h1]

theorem runLen_some_iff {b : Board} {p : Int} (hp : p ≠ 0) (d : Move) :
    ∀ (fuel : Nat) (r c : Int) (n : Nat),
      (runLen b p d.1 d.2 r c fuel = some n ↔
        n < fuel ∧ (∀ j, j < n → inB (posAt (r, c) d j) ∧ cellv b (posAt (r, c) d j) = -p) ∧
          inB (posAt (r, c) d n) ∧ cellv b (posAt (r, c) d n) = p)
  | 0, r, c, n => by simp [runLen]
  | fuel+1, r, c, n => by
    rw [runLen]
    by_cases h1 : inB (r, c)
    case neg =>
      rw [if_neg h1]
      constructor
      · intro h; exact Option.noConfusion h
      · rintro ⟨-, hrun, hin, -⟩
        exfalso
        cases n with
        | zero => exact h1 (by simpa [posAt_zero] using hin)
        | succ k => exact h1 (by simpa [posAt_zero] using (hrun 0 (by omega)).1)
    case pos =>
      rw [if_pos h1]
      by_cases h2 : cellv b (r, c) = -p
      case pos =>
        rw [if_pos h2]
        constructor
        · intro h
          rw [Option.map_eq_some'] at h
          obtain ⟨n', hn', rfl⟩ := h
          rw [runLen_some_iff hp d fuel (r + d.1) (c + d.2) n'] at hn'
          obtain ⟨hlt, hrun, hin, hcell⟩ := hn'
          refine ⟨by omega, ?_, ?_, ?_⟩
          · intro j hj
            cases j with
            | zero => exact ⟨by simpa [posAt_zero] using h1, by simpa [posAt_zero] using h2⟩
            | succ j' => rw [← posAt_step]; exact hrun j' (by omega)
          · rw [← posAt_step]; exact hin
          · rw [← posAt_step]; exact hcell
        · rintro ⟨hlt, hrun, hin, hcell⟩
          cases n with
          | zero =>
            exfalso
            rw [posAt_zero] at hcell
            omega
          | succ n' =>
            rw [Option.map_eq_some']
            refine ⟨n', ?_, rfl⟩
            rw [runLen_some_iff hp d fuel (r + d.1) (c + d.2) n']
            refine ⟨by omega, ?_, ?_, ?_⟩
            · intro j hj; rw [posAt_step]; exact hrun (j + 1) (by omega)
            · rw [posAt_step]; exact hin
            · rw [posAt_step]; exact hcell
      case neg =>
        rw [if_neg h2]
        by_cases h3 : cellv b (r, c) = p
        case pos =>
          rw [if_pos h3, Option.some_inj]
          constructor
          · rintro rfl
            exact ⟨by omega, fun j hj => absurd hj (by omega),
              by simpa [posAt_zero] using h1, by simpa [posAt_zero] using h3⟩
          · rintro ⟨-, hrun, hin, hcell⟩
            cases n with
            | zero => rfl
            | succ n' => exact absurd (hrun 0 (by omega)).2 (by simpa [posAt_zero] using h2)
        case neg =>
          rw [if_neg h3]
          constructor
          · intro h; exact Option.noConfusion h
          · rintro ⟨-, hrun, hin, hcell⟩
            exfalso
            cases n with
            | zero => exact h3 (by simpa [posAt_zero] using hcell)
            | succ n' => exact h2 (by simpa [posAt_zero] using (hrun 0 (by omega)).2)

theorem mem_raySeg (d : Move) :
    ∀ (n : Nat) (r c : Int) (q : Move),
      (q ∈ raySeg d.1 d.2 r c n ↔ ∃ k, k < n ∧ q = posAt (r, c) d k)
  | 0, r, c, q => by simp [raySeg]
  | n+1, r, c, q => by
    rw [raySeg, List.mem_cons, mem_raySeg d n (r + d.1) (c + d.2) q]
    constructor
    · rintro (rfl | ⟨k, hk, rfl⟩)
      · exact ⟨0, by omega, (posAt_zero r c d).symm⟩
      · exact ⟨k + 1, by omega, posAt_step r c d k⟩
    · rintro ⟨k, hk, rfl⟩
      cases k with
      | zero => exact Or.inl (posAt_zero r c d)
      | succ k' => exact Or.inr ⟨k', by omega, (posAt_step r c d k').symm⟩

/-- Membership in one direction's flip run agrees with the claim-language
description of that direction's flips. -/
theorem mem_flipRun {b : Board} {p : Int} (hp : p ≠ 0) {d : Move} (hd : d ∈ directions)
    (m1 m2 : Int) (q : Move) :
    q ∈ flipRun b p (m1, m2) d ↔ flipsSpecDir b p (m1, m2) d q := by
  rw [flipRun, flipsSpecDir, collectFlips_eq d 16 (m1 + d.1) (m2 + d.2) []]
  constructor
  · intro hq
    rcases hrl : runLen b p d.1 d.2 (m1 + d.1) (m2 + d.2) 16 with _ | nr
    · rw [hrl] at hq
      exact absurd hq (List.not_mem_nil q)
    · rw [hrl] at hq
      dsimp only at hq
      rw [List.nil_append, mem_raySeg d nr (m1 + d.1) (m2 + d.2) q] at hq
      obtain ⟨k, hk, rfl⟩ := hq
      rw [runLen_some_iff hp d 16 (m1 + d.1) (m2 + d.2) nr] at hrl
      obtain ⟨hlt, hrun, hin, hcell⟩ := hrl
      refine ⟨nr, by omega, ?_, ?_, ?_, k + 1, by omega, by omega, posAt_step m1 m2 d k⟩

      · intro j hj1 hjn
        have h := hrun (j - 1) (by omega)
        rw [posAt_step, show j - 1 + 1 = j from by omega] at h
        exact h
      · rw [← posAt_step m1 m2 d nr]
        exact hin
      · rw [← posAt_step m1 m2 d nr]
        exact hcell
  · rintro ⟨n, hn1, hrun, hin, hcell, k, hk1, hkn, rfl⟩
    have hbound : n - 1 ≤ 7 := by
      have h1 := (hrun 1 (by omega) (by omega)).1
      rw [posAt_one] at h1
      have heq : posAt (m1 + d.1, m2 + d.2) d (n - 1) = posAt (m1, m2) d n := by
        rw [posAt_step, show n - 1 + 1 = n from by omega]
      exact posAt_bound hd h1 (by rw [heq]; exact (hrun n (by omega) (by omega)).1)
    have hrl : runLen b p d.1 d.2 (m1 + d.1) (m2 + d.2) 16 = some n := by
      rw [runLen_some_iff hp d 16 (m1 + d.1) (m2 + d.2) n]
      refine ⟨by omega, ?_, ?_, ?_⟩
      · intro j hj
        rw [posAt_step]
        exact hrun (j + 1) (by omega) (by omega)
      · rw [posAt_step]
        exact hin
      · rw [posAt_step]
        exact hcell
    rw [hrl]
    dsimp only
    rw [List.nil_append, mem_raySeg d n (m1 + d.1) (m2 + d.2)]
    exact ⟨k - 1, by omega, by rw [posAt_step, show k - 1 + 1 = k from by omega]⟩

/-! ## Rays in distinct directions are disjoint -/

theorem ray_ne_base {d : Move} (hd : d ∈ directions) (m : Move) {k : Nat} (hk : 1 ≤ k) :
    posAt m d k ≠ m := by
  fin_cases hd <;>
    (intro h; simp only [posAt, Prod.ext_iff] at h; omega)

theorem ray_disjoint {d1 d2 : Move} (h1 : d1 ∈ directions) (h2 : d2 ∈ directions)
    (hne : d1 ≠ d2) (m : Move) {k1 k2 : Nat} (hk1 : 1 ≤ k1) (hk2 : 1 ≤ k2) :
    posAt m d1 k1 ≠ posAt m d2 k2 := by
  fin_cases h1 <;> fin_cases h2 <;> first
    | exact absurd rfl hne
    | (intro h; simp only [posAt, Prod.ext_iff] at h; omega)

/-! ## The flip walk only reads cells on its own ray -/

theorem collectFlips_congr {b b2 : Board} {p : Int} (d : Move) :
    ∀ (fuel : Nat) (r c : Int) (acc : List Move),
      (∀ j : Nat, j < fuel → inB (posAt (r, c) d j) →
        cellv b2 (posAt (r, c) d j) = cellv b (posAt (r, c) d j)) →
      collectFlips b2 p d.1 d.2 r c acc fuel = collectFlips b p d.1 d.2 r c acc fuel
  | 0, _, _, _, _ => rfl
  | fuel+1, r, c, acc, hcong => by
    rw [collectFlips, collectFlips]
    by_cases h1 : inB (r, c)
    · rw [if_pos h1, if_pos h1]
      have h0 : cellv b2 (r, c) = cellv b (r, c) := by
        have h := hcong 0 (by omega) (by rwa [posAt_zero])
        rwa [posAt_zero] at h
      rw [h0]
      by_cases h2 : cellv b (r, c) = -p
      · rw [if_pos h2, if_pos h2]
        refine collectFlips_congr d fuel (r + d.1) (c + d.2) (acc ++ [(r, c)]) ?_
        intro j hj hin
        rw [posAt_step] at hin ⊢
        exact hcong (j + 1) (by omega) hin
      · rw [if_neg h2, if_neg h2]
    · rw [if_neg h1, if_neg h1]

/-! ## Writing a run of cells -/

theorem WB_foldl_setCellP {p : Int} :
    ∀ (run : List Move) (bb : Board), WB bb → (∀ x ∈ run, inB x) →
      WB (run.foldl (fun b2 x => setCellP b2 x p) bb)
  | [], bb, hbb, _ => hbb
  | x :: rest, bb, hbb, hrun => by
    rw [List.foldl_cons]
    exact WB_foldl_setCellP rest _ (WB_setCellP hbb (hrun x (List.mem_cons_self x rest)) p)
      (fun y hy => hrun y (List.mem_cons_of_mem x hy))

theorem cellv_foldl_setCellP {p : Int} :
    ∀ (run : List Move) (bb : Board), WB bb → (∀ x ∈ run, inB x) →
      ∀ q, inB q →
        cellv (run.foldl (fun b2 x => setCellP b2 x p) bb) q =
          if q ∈ run then p else cellv bb q
  | [], bb, _, _, q, _ => by simp
  | x :: rest, bb, hbb, hrun, q, hq => by
    rw [List.foldl_cons]
    have hx : inB x := hrun x (List.mem_cons_self x rest)
    rw [cellv_foldl_setCellP rest _ (WB_setCellP hbb hx p)
      (fun y hy => hrun y (List.mem_cons_of_mem x hy)) q hq]
    rw [cellv_setCellP hbb hx hq p]
    by_cases hqr : q ∈ rest
    · rw [if_pos hqr, if_pos (List.mem_cons_of_mem x hqr)]
    · rw [if_neg hqr]
      by_cases hqx : q = x
      · rw [if_pos hqx, if_pos (hqx ▸ List.mem_cons_self x rest)]
      · rw [if_neg hqx, if_neg]
        intro hmem
        rcases List.mem_cons.mp hmem with h | h
        · exact hqx h
        · exact hqr h

theorem mem_flipRun2 {b : Board} {p : Int} (hp : p ≠ 0) {d : Move} (hd : d ∈ directions)
    (m q : Move) : q ∈ flipRun b p m d ↔ flipsSpecDir b p m d q := by
  obtain ⟨m1, m2⟩ := m
  exact mem_flipRun hp hd m1 m2 q

theorem validMoves_ne_zero {b : Board} {p : Int} {m : Move}
    (hm : m ∈ validMoves b p) : p ≠ 0 := by
  intro h
  subst h
  rw [validMoves_zero] at hm
  exact absurd hm (List.not_mem_nil m)

theorem flipRun_inB {b : Board} {p : Int} (hp : p ≠ 0) {d : Move} (hd : d ∈ directions)
    (m : Move) : ∀ x ∈ flipRun b p m d, inB x := by
  intro x hx
  rw [mem_flipRun2 hp hd] at hx
  obtain ⟨n, hn1, hrun, -, -, k, hk1, hkn, rfl⟩ := hx
  exact (hrun k hk1 hkn).1

/-- The direction fold of `apply_move`: processing any suffix of the
direction list starting from a board that agrees with the placed-disk board
off the processed flips yields the pointwise description of the flips of all
directions, computed on the original board. -/
theorem flipFold_cells {b : Board} {p : Int} (hp : p ≠ 0) {m : Move} (hmIn : inB m) :
    ∀ (ds done : List Move), done ++ ds = directions →
      ∀ bb : Board, WB bb →
        (∀ x, inB x → cellv bb x =
          if x = m ∨ ∃ d ∈ done, x ∈ flipRun b p m d then p else cellv b x) →
        ∀ x, inB x →
          cellv (ds.foldl (fun bb2 d => (flipRun bb2 p m d).foldl
              (fun b2 y => setCellP b2 y p) bb2) bb) x =
            if x = m ∨ ∃ d ∈ done ++ ds, x ∈ flipRun b p m d then p else cellv b x
  | [], done, heq, bb, hbbW, hinv, x, hx => by
    rw [List.foldl_nil, List.append_nil]
    exact hinv x hx
  | d0 :: ds, done, heq, bb, hbbW, hinv, x, hx => by
    have hd0 : d0 ∈ directions := by
      rw [← heq]
      exact List.mem_append_right done (List.mem_cons_self d0 ds)
    have hnodup : directions.Nodup := by decide
    have hdisj : List.Disjoint done (d0 :: ds) := by
      rw [← heq] at hnodup
      exact List.disjoint_of_nodup_append hnodup
    have hdone_ne : ∀ d ∈ done, d ≠ d0 :=
      fun d hdm hcontra => hdisj hdm (hcontra ▸ List.mem_cons_self d0 ds)
    have hsame : flipRun bb p m d0 = flipRun b p m d0 := by
      rw [flipRun, flipRun]
      refine collectFlips_congr d0 16 (m.1 + d0.1) (m.2 + d0.2) [] ?_
      intro j hj hin
      rw [posAt_stepq m d0 j] at hin ⊢
      rw [hinv _ hin, if_neg]
      rintro (heqm | ⟨d, hdmem, hdflip⟩)
      · exact ray_ne_base hd0 m (by omega) heqm
      · have hd : d ∈ directions := by
          rw [← heq]
          exact List.mem_append_left _ hdmem
        rw [mem_flipRun2 hp hd] at hdflip
        obtain ⟨n, hn1, hrun, -, -, k, hk1, hkn, hqe⟩ := hdflip
        exact ray_disjoint hd hd0 (hdone_ne d hdmem) m hk1 (by omega) hqe.symm
    rw [List.foldl_cons, hsame]
    have hruncells := flipRun_inB (b := b) hp hd0 m
    have hbb2W : WB ((flipRun b p m d0).foldl (fun b2 y => setCellP b2 y p) bb) :=
      WB_foldl_setCellP _ bb hbbW hruncells
    have hinv2 : ∀ y, inB y →
        cellv ((flipRun b p m d0).foldl (fun b2 y => setCellP b2 y p) bb) y =
          if y = m ∨ ∃ d ∈ done ++ [d0], y ∈ flipRun b p m d then p else cellv b y := by
      intro y hy
      rw [cellv_foldl_setCellP _ bb hbbW hruncells y hy]
      by_cases hyr : y ∈ flipRun b p m d0
      · rw [if_pos hyr, if_pos (Or.inr ⟨d0, List.mem_append_right done
          (List.mem_cons_self d0 []), hyr⟩)]
      · rw [if_neg hyr, hinv y hy]
        by_cases hcond : y = m ∨ ∃ d ∈ done, y ∈ flipRun b p m d
        · rw [if_pos hcond, if_pos]
          rcases hcond with h | ⟨d, hdm, hdf⟩
          · exact Or.inl h
          · exact Or.inr ⟨d, List.mem_append_left [d0] hdm, hdf⟩
        · rw [if_neg hcond, if_neg]
          rintro (h | ⟨d, hdm, hdf⟩)
          · exact hcond (Or.inl h)
          · rcases List.mem_append.mp hdm with h2 | h2
            · exact hcond (Or.inr ⟨d, h2, hdf⟩)
            · rw [List.mem_singleton.mp h2] at hdf
              exact hyr hdf
    have heq2 : (done ++ [d0]) ++ ds = directions := by
      rw [List.append_assoc, List.singleton_append]
      exact heq
    have hmain := flipFold_cells hp hmIn ds (done ++ [d0]) heq2 _ hbb2W hinv2 x hx
    rw [hmain, List.append_assoc, List.singleton_append]

open Classical in
/-- Pointwise description of the board produced by a legal `apply_move`. -/
theorem applyMove_board {b : Board} (hb : WB b) {p : Int} {m : Move}
    (hm : m ∈ validMoves b p) (q : Move) (hq : inB q) :
    cellv (applyMove b m p).2 q =
      if q = m ∨ flipsSpec b p m q then p else cellv b q := by
  have hp : p ≠ 0 := validMoves_ne_zero hm
  have hleg := (validMoves_iff_legalSpec hp m).mp hm
  have hmIn : inB m := hleg.1
  rw [applyMove, if_pos hm]
  show cellv (directions.foldl (fun bb2 d => (flipRun bb2 p m d).foldl
      (fun b2 y => setCellP b2 y p) bb2) (setCellP b m p)) q = _
  have hinv : ∀ x, inB x → cellv (setCellP b m p) x =
      if x = m ∨ ∃ d ∈ ([] : List Move), x ∈ flipRun b p m d then p else cellv b x := by
    intro x hx
    rw [cellv_setCellP hb hmIn hx p]
    by_cases hxm : x = m
    · rw [if_pos hxm, if_pos (Or.inl hxm)]
    · rw [if_neg hxm, if_neg]
      rintro (h | ⟨d, hd, -⟩)
      · exact hxm h
      · exact absurd hd (List.not_mem_nil d)
  have h := flipFold_cells hp hmIn directions [] rfl (setCellP b m p)
    (WB_setCellP hb hmIn p) hinv q hq
  rw [h, List.nil_append]
  have hiff : (∃ d ∈ directions, q ∈ flipRun b p m d) ↔ flipsSpec b p m q := by
    constructor
    · rintro ⟨d, hd, hqf⟩
      exact ⟨d, hd, (mem_flipRun2 hp hd m q).mp hqf⟩
    · rintro ⟨d, hd, hqf⟩
      exact ⟨d, hd, (mem_flipRun2 hp hd m q).mpr hqf⟩
  by_cases hcond : q = m ∨ flipsSpec b p m q
  · rw [if_pos ((or_congr_right hiff).mpr hcond), if_pos hcond]
  · rw [if_neg (fun hcontra => hcond ((or_congr_right hiff).mp hcontra)), if_neg hcond]

/-! ## Claim C1: full behavior of apply_move -/

open Classical in
/-- C1: for every well-formed game state, coordinate pair and player,
`apply_move` returns `false` and leaves every cell unchanged when the move
is not legal; when the move is legal it returns `true`, places the player's
disk on the chosen empty cell, and sets to the player's color exactly those
cells belonging to contiguous runs of opponent disks that start adjacent to
the placed disk in one of the 8 directions and are terminated by a
same-player disk (`flipsSpec`); every other cell keeps its previous value. -/
theorem applyMove_spec (b : Board) (p : Int) (m : Move) (hb : WB b) :
    (m ∉ validMoves b p → applyMove b m p = (false, b)) ∧
    (m ∈ validMoves b p →
      (applyMove b m p).1 = true ∧ cellv b m = 0 ∧ cellv (applyMove b m p).2 m = p ∧
      ∀ q, inB q → cellv (applyMove b m p).2 q =
        if q = m ∨ flipsSpec b p m q then p else cellv b q) := by
  constructor
  · intro hm
    rw [applyMove, if_neg hm]
  · intro hm
    have hp : p ≠ 0 := validMoves_ne_zero hm
    have hleg := (validMoves_iff_legalSpec hp m).mp hm
    refine ⟨by rw [applyMove, if_pos hm], hleg.2.1, ?_, applyMove_board hb hm⟩
    rw [applyMove_board hb hm m hleg.1, if_pos (Or.inl rfl)]

open Classical in
/-- Witness for `applyMove_spec`: on the opening position, move (0,0) is
illegal for BLACK and is rejected without mutation, while move (2,3) is
legal and yields the described board. -/
theorem applyMove_spec_witness :
    WB initialBoard ∧
    ((0, 0) ∉ validMoves initialBoard 1 ∧
      applyMove initialBoard (0, 0) 1 = (false, initialBoard)) ∧
    ((2, 3) ∈ validMoves initialBoard 1 ∧
      ((applyMove initialBoard (2, 3) 1).1 = true ∧
        cellv initialBoard (2, 3) = 0 ∧
        cellv (applyMove initialBoard (2, 3) 1).2 (2, 3) = 1 ∧
        ∀ q, inB q → cellv (applyMove initialBoard (2, 3) 1).2 q =
          if q = (2, 3) ∨ flipsSpec initialBoard 1 (2, 3) q then 1
          else cellv initialBoard q)) :=
  ⟨by decide,
   ⟨by decide, (applyMove_spec initialBoard 1 (0, 0) (by decide)).1 (by decide)⟩,
   ⟨by decide, (applyMove_spec initialBoard 1 (2, 3) (by decide)).2 (by decide)⟩⟩

/-! ## Claim C2: legal moves flip a disk and add exactly one disk -/

theorem mem_allCells {q : Move} : q ∈ allCells ↔ inB q := by
  simp only [allCells, mem_cmap, List.mem_map]
  constructor
  · rintro ⟨r, hr, c, hc, rfl⟩
    rw [mem_rng8] at hr hc
    exact ⟨hr.1, hr.2, hc.1, hc.2⟩
  · rintro ⟨h1, h2, h3, h4⟩
    exact ⟨q.1, mem_rng8.mpr ⟨h1, h2⟩, q.2, mem_rng8.mpr ⟨h3, h4⟩, rfl⟩

theorem countP_congr_mem {α : Type} (g g2 : α → Bool) :
    ∀ (l : List α), (∀ x ∈ l, g x = g2 x) → List.countP g l = List.countP g2 l
  | [], _ => rfl
  | x :: xs, h => by
    rw [List.countP_cons, List.countP_cons,
      countP_congr_mem g g2 xs (fun y hy => h y (List.mem_cons_of_mem x hy)),
      h x (List.mem_cons_self x xs)]

theorem countP_update {α : Type} (g g2 : α → Bool) (a : α) :
    ∀ (l : List α), l.Nodup → a ∈ l → (∀ x ∈ l, x ≠ a → g2 x = g x) →
      g a = false → g2 a = true → List.countP g2 l = List.countP g l + 1
  | [], _, ha, _, _, _ => absurd ha (List.not_mem_nil a)
  | x :: xs, hnd, ha, hcong, hga, hg2a => by
    rw [List.countP_cons, List.countP_cons]
    rcases List.mem_cons.mp ha with rfl | ha2
    · have hxs : ∀ y ∈ xs, g2 y = g y := by
        intro y hy
        exact hcong y (List.mem_cons_of_mem a hy)
          (fun hya => (List.nodup_cons.mp hnd).1 (hya ▸ hy))
      rw [countP_congr_mem g2 g xs hxs, hga, hg2a]
      simp
    · have hxa : x ≠ a := fun hxa => (List.nodup_cons.mp hnd).1 (hxa ▸ ha2)
      rw [countP_update g g2 a xs (List.nodup_cons.mp hnd).2 ha2
        (fun y hy hya => hcong y (List.mem_cons_of_mem x hy) hya) hga hg2a,
        hcong x (List.mem_cons_self x xs) hxa]
      omega

theorem flipsSpec_cell {b : Board} {p : Int} {m q : Move} (hfs : flipsSpec b p m q) :
    inB q ∧ cellv b q = -p := by
  obtain ⟨d, hd, n, hn1, hrun, -, -, k, hk1, hkn, rfl⟩ := hfs
  exact hrun k hk1 hkn

/-- C2: every legal move, when applied, flips at least one opposing disk
(some cell changes from the opponent's color to the mover's), and the total
number of disks of the two colors grows by exactly one. -/
theorem legal_move_flips_and_counts (b : Board) (p : Int) (m : Move) (hb : WB b)
    (hm : m ∈ validMoves b p) :
    (applyMove b m p).1 = true ∧
    (∃ q, inB q ∧ cellv b q = -p ∧ cellv (applyMove b m p).2 q = p) ∧
    totalDisks (applyMove b m p).2 p = totalDisks b p + 1 := by
  have hp : p ≠ 0 := validMoves_ne_zero hm
  have hspec := (applyMove_spec b p m hb).2 hm
  obtain ⟨hflag, hm0, hmp, hcells⟩ := hspec
  have hleg := (validMoves_iff_legalSpec hp m).mp hm
  obtain ⟨hmIn, -, d, hd, n, hn1, hrun, hinE, hcellE⟩ := hleg
  refine ⟨hflag, ?_, ?_⟩
  · refine ⟨posAt m d 1, (hrun 1 (by omega) (by omega)).1, (hrun 1 (by omega) (by omega)).2, ?_⟩
    rw [hcells (posAt m d 1) (hrun 1 (by omega) (by omega)).1, if_pos]
    exact Or.inr ⟨d, hd, n, hn1, hrun, hinE, hcellE, 1, by omega, by omega, rfl⟩
  · rw [totalDisks, totalDisks]
    refine countP_update _ _ m allCells (by decide) (mem_allCells.mpr hmIn) ?_ ?_ ?_
    · intro x hx hxm
      have hxIn : inB x := mem_allCells.mp hx
      rw [hcells x hxIn]
      by_cases hfs : flipsSpec b p m x
      · rw [if_pos (Or.inr hfs)]
        have hold : cellv b x = -p := (flipsSpec_cell hfs).2
        rw [hold]
        have h1 : (decide (p = p ∨ p = -p)) = true := by
          simp
        have h2 : (decide (-p = p ∨ -p = -p)) = true := by
          simp
        rw [h1, h2]
      · rw [if_neg (by rintro (h | h); exacts [hxm h, hfs h])]
    · rw [hm0]
      simp only [decide_eq_false_iff_not]
      rintro (h | h) <;> omega
    · rw [hmp]
      simp

/-! ## Claim C5: the forced-pass branch of minimax -/

/-- C5: on a non-terminal board where the side to act has no legal moves,
`minimax` at positive depth returns the score of the recursion on the
unchanged board at depth one lower with the maximizing flag flipped, paired
with a null move. -/
theorem minimax_pass (h : Board → Rat) (color : Int) (d : Nat) (b : Board)
    (alpha beta : EScore) (mx : Bool) (hno : ¬ gameOver b)
    (hpass : validMoves b (if mx then color else -color) = []) :
    minimaxAB h color (d + 1) b alpha beta mx =
      ((minimaxAB h color d b alpha beta (!mx)).1, none) := by
  rw [minimaxAB, if_neg hno]
  simp only [hpass, if_true]

/-- Witness for `minimax_pass`: on `passBoard` BLACK must pass while the
game is not over. -/
theorem minimax_pass_witness :
    ¬ gameOver passBoard ∧ validMoves passBoard 1 = [] ∧
    minimaxAB (fun _ => (0 : Rat)) 1 1 passBoard ⊥ ⊤ true =
      ((minimaxAB (fun _ => (0 : Rat)) 1 0 passBoard ⊥ ⊤ (!true)).1, none) :=
  ⟨by decide, by decide,
    minimax_pass (fun _ => (0 : Rat)) 1 0 passBoard ⊥ ⊤ true (by decide) (by decide)⟩

/-! ## Fold lemmas for extended scores -/

theorem pair_fst_max (M e : EScore) (mv best : Option Move) :
    (if M < e then (e, mv) else (M, best)).1 = max M e := by
  split_ifs with h
  · exact (max_eq_right (le_of_lt h)).symm
  · exact (max_eq_left (not_lt.mp h)).symm

theorem pair_fst_min (M e : EScore) (mv best : Option Move) :
    (if e < M then (e, mv) else (M, best)).1 = min M e := by
  split_ifs with h
  · exact (min_eq_right (le_of_lt h)).symm
  · exact (min_eq_left (not_lt.mp h)).symm

theorem foldl_max_init_le {a b : EScore} (hab : a ≤ b) :
    ∀ l : List EScore, l.foldl max a ≤ l.foldl max b
  | [] => hab
  | x :: xs => foldl_max_init_le (max_le_max hab (le_refl x)) xs

theorem le_foldl_max (a : EScore) : ∀ l : List EScore, a ≤ l.foldl max a
  | [] => le_refl a
  | x :: xs => le_trans (le_max_left a x) (le_foldl_max (max a x) xs)

theorem elem_le_foldl_max (a : EScore) :
    ∀ (l : List EScore) (x : EScore), x ∈ l → x ≤ l.foldl max a
  | y :: xs, x, hx => by
    rw [List.foldl_cons]
    rcases List.mem_cons.mp hx with rfl | hx2
    · exact le_trans (le_max_right a x) (le_foldl_max (max a x) xs)
    · exact elem_le_foldl_max (max a y) xs x hx2

theorem foldl_max_cases (a : EScore) :
    ∀ l : List EScore, l.foldl max a = a ∨ l.foldl max a ∈ l
  | [] => Or.inl rfl
  | x :: xs => by
    rw [List.foldl_cons]
    rcases foldl_max_cases (max a x) xs with h | h
    · rcases max_choice a x with h2 | h2
      · exact Or.inl (h.trans h2)
      · exact Or.inr (List.mem_cons.mpr (Or.inl (h.trans h2)))
    · exact Or.inr (List.mem_cons_of_mem x h)

theorem foldl_min_init_le {a b : EScore} (hab : a ≤ b) :
    ∀ l : List EScore, l.foldl min a ≤ l.foldl min b
  | [] => hab
  | x :: xs => foldl_min_init_le (min_le_min hab (le_refl x)) xs

theorem foldl_min_le (a : EScore) : ∀ l : List EScore, l.foldl min a ≤ a
  | [] => le_refl a
  | x :: xs => le_trans (foldl_min_init_le (min_le_left a x) xs) (foldl_min_le a xs)

theorem foldl_min_le_elem (a : EScore) :
    ∀ (l : List EScore) (x : EScore), x ∈ l → l.foldl min a ≤ x
  | y :: xs, x, hx => by
    rw [List.foldl_cons]
    rcases List.mem_cons.mp hx with rfl | hx2
    · exact le_trans (foldl_min_le (min a x) xs) (min_le_right a x)
    · exact foldl_min_le_elem (min a y) xs x hx2

theorem foldl_min_cases (a : EScore) :
    ∀ l : List EScore, l.foldl min a = a ∨ l.foldl min a ∈ l
  | [] => Or.inl rfl
  | x :: xs => by
    rw [List.foldl_cons]
    rcases foldl_min_cases (min a x) xs with h | h
    · rcases min_choice a x with h2 | h2
      · exact Or.inl (h.trans h2)
      · exact Or.inr (List.mem_cons.mpr (Or.inl (h.trans h2)))
    · exact Or.inr (List.mem_cons_of_mem x h)

theorem bot_lt_toE (q : Rat) : (⊥ : EScore) < toE q := WithBot.bot_lt_coe _

theorem toE_lt_top (q : Rat) : toE q < (⊤ : EScore) :=
  WithBot.coe_lt_coe.mpr (WithTop.coe_lt_top q)

/-- Fail-soft window invariant for the maximizing alpha-beta loop: if every
child evaluation satisfies the window property and the loop state is
consistent (`alphac` is the raised alpha, `M` the best score so far, `Mv`
the true maximum of the already-examined children), then the loop result
satisfies the window property against the true maximum of all children. -/
theorem abMaxLoop_KM (f : Board → EScore → EScore → EScore) (fv : Board → EScore)
    (mover : Int) (b : Board)
    (hchild : ∀ b2 a2 b3, a2 < b3 → KMprop (f b2 a2 b3) a2 b3 (fv b2))
    (alpha0 beta : EScore) :
    ∀ (moves : List Move) (M Mv : EScore) (best : Option Move) (alphac : EScore),
      alphac = max alpha0 M → alphac < beta →
      (M ≤ alpha0 → Mv ≤ M) → (alpha0 < M → M < beta → M = Mv) →
      KMprop (abMaxLoop f mover b moves M best alphac beta).1 alpha0 beta
        ((moves.map (fun mv => fv (applyMove b mv mover).2)).foldl max Mv)
  | [], M, Mv, best, alphac, hac, hacb, hI2, hI3 => by
    rw [abMaxLoop, List.map_nil, List.foldl_nil]
    refine ⟨hI2, hI3, ?_⟩
    intro hbM
    exfalso
    have hMac : M ≤ alphac := hac ▸ le_max_right alpha0 M
    exact absurd (lt_of_le_of_lt (le_trans hbM hMac) hacb) (lt_irrefl beta)
  | mv :: rest, M, Mv, best, alphac, hac, hacb, hI2, hI3 => by
    simp only [abMaxLoop, List.map_cons, List.foldl_cons]
    set b2 := (applyMove b mv mover).2 with hb2
    set e := f b2 alphac beta with he
    obtain ⟨hc1, hc2, hc3⟩ := hchild b2 alphac beta hacb
    have ha0b : alpha0 < beta := lt_of_le_of_lt (hac ▸ le_max_left alpha0 M) hacb
    have hMac : M ≤ alphac := hac ▸ le_max_right alpha0 M
    by_cases hbr : beta ≤ max alphac e
    · rw [if_pos hbr, pair_fst_max]
      have hbe : beta ≤ e := by
        rcases max_choice alphac e with hmc | hmc
        · rw [hmc] at hbr
          exact absurd (lt_of_le_of_lt hbr hacb) (lt_irrefl beta)
        · rw [hmc] at hbr
          exact hbr
      have hMe : M < e := lt_of_le_of_lt hMac (lt_of_lt_of_le hacb hbe)
      rw [max_eq_right (le_of_lt hMe)]
      refine ⟨?_, ?_, ?_⟩
      · intro hle
        exact absurd (lt_of_le_of_lt hle ha0b) (not_lt.mpr hbe)
      · intro _ hlt
        exact absurd hlt (not_lt.mpr hbe)
      · intro _
        exact le_trans (hc3 hbe)
          (le_trans (le_max_right Mv (fv b2)) (le_foldl_max _ _))
    · rw [if_neg hbr, pair_fst_max]
      have hacb2 : max alphac e < beta := not_le.mp hbr
      have heb : e < beta := lt_of_le_of_lt (le_max_right alphac e) hacb2
      refine abMaxLoop_KM f fv mover b hchild alpha0 beta rest (max M e) (max Mv (fv b2))
        _ (max alphac e) ?_ hacb2 ?_ ?_
      · rw [hac]
        exact max_assoc alpha0 M e
      · intro hle
        have hM0 : M ≤ alpha0 := le_trans (le_max_left M e) hle
        have he0 : e ≤ alpha0 := le_trans (le_max_right M e) hle
        have heac : e ≤ alphac := le_trans he0 (hac ▸ le_max_left alpha0 M)
        exact max_le (le_trans (hI2 hM0) (le_max_left M e))
          (le_trans (hc1 heac) (le_max_right M e))
      · intro h0M hMb
        rcases le_or_lt e alphac with hec | hec
        · have hfv : fv b2 ≤ e := hc1 hec
          rcases le_or_lt e M with hem | hem
          · rw [max_eq_left hem] at h0M hMb ⊢
            have hMv := hI3 h0M hMb
            rw [← hMv]
            exact (max_eq_left (le_trans hfv hem)).symm
          · exfalso
            rw [max_eq_right (le_of_lt hem)] at h0M
            have hlt : alphac < e := by
              rw [hac]
              exact max_lt h0M hem
            exact absurd hec (not_le.mpr hlt)
        · have hfv : e = fv b2 := hc2 hec heb
          have hMe : M < e := lt_of_le_of_lt hMac hec
          rw [max_eq_right (le_of_lt hMe)] at h0M hMb ⊢
          have hMv_le : Mv ≤ e := by
            rcases le_or_lt M alpha0 with hM0 | hM0
            · exact le_trans (hI2 hM0) (le_of_lt hMe)
            · have h3 := hI3 hM0 (lt_trans hMe hMb)
              exact le_of_lt (h3 ▸ hMe)
          rw [← hfv]
          exact (max_eq_right hMv_le).symm

/-- Fail-soft window invariant for the minimizing alpha-beta loop, dual to
`abMaxLoop_KM`. -/
theorem abMinLoop_KM (f : Board → EScore → EScore → EScore) (fv : Board → EScore)
    (mover : Int) (b : Board)
    (hchild : ∀ b2 a2 b3, a2 < b3 → KMprop (f b2 a2 b3) a2 b3 (fv b2))
    (alpha0 beta0 : EScore) :
    ∀ (moves : List Move) (M Mv : EScore) (best : Option Move) (betac : EScore),
      betac = min beta0 M → alpha0 < betac →
      (beta0 ≤ M → M ≤ Mv) → (alpha0 < M → M < beta0 → M = Mv) →
      KMprop (abMinLoop f mover b moves M best alpha0 betac).1 alpha0 beta0
        ((moves.map (fun mv => fv (applyMove b mv mover).2)).foldl min Mv)
  | [], M, Mv, best, betac, hbc, habc, hI2, hI3 => by
    rw [abMinLoop, List.map_nil, List.foldl_nil]
    refine ⟨?_, hI3, hI2⟩
    intro hMa
    exfalso
    have hbcM : betac ≤ M := hbc ▸ min_le_right beta0 M
    exact absurd (lt_of_lt_of_le habc (le_trans hbcM hMa)) (lt_irrefl alpha0)
  | mv :: rest, M, Mv, best, betac, hbc, habc, hI2, hI3 => by
    simp only [abMinLoop, List.map_cons, List.foldl_cons]
    set b2 := (applyMove b mv mover).2 with hb2
    set e := f b2 alpha0 betac with he
    obtain ⟨hc1, hc2, hc3⟩ := hchild b2 alpha0 betac habc
    have ha0b : alpha0 < beta0 := lt_of_lt_of_le habc (hbc ▸ min_le_left beta0 M)
    have hbcM : betac ≤ M := hbc ▸ min_le_right beta0 M
    by_cases hbr : min betac e ≤ alpha0
    · rw [if_pos hbr, pair_fst_min]
      have hea : e ≤ alpha0 := by
        rcases min_choice betac e with hmc | hmc
        · rw [hmc] at hbr
          exact absurd (lt_of_lt_of_le habc hbr) (lt_irrefl alpha0)
        · rw [hmc] at hbr
          exact hbr
      have heM : e < M := lt_of_le_of_lt hea (lt_of_lt_of_le habc hbcM)
      rw [min_eq_right (le_of_lt heM)]
      refine ⟨?_, ?_, ?_⟩
      · intro _
        exact le_trans (foldl_min_le _ _)
          (le_trans (min_le_right Mv (fv b2)) (hc1 hea))
      · intro hlt _
        exact absurd hlt (not_lt.mpr hea)
      · intro hge
        exact absurd (lt_of_le_of_lt (le_trans hge hea) ha0b) (lt_irrefl beta0)
    · rw [if_neg hbr, pair_fst_min]
      have habc2 : alpha0 < min betac e := not_le.mp hbr
      have hae : alpha0 < e := lt_of_lt_of_le habc2 (min_le_right betac e)
      refine abMinLoop_KM f fv mover b hchild alpha0 beta0 rest (min M e) (min Mv (fv b2))
        _ (min betac e) ?_ habc2 ?_ ?_
      · rw [hbc]
        exact min_assoc beta0 M e
      · intro hle
        have hM0 : beta0 ≤ M := le_trans hle (min_le_left M e)
        have he0 : beta0 ≤ e := le_trans hle (min_le_right M e)
        have hebc : betac ≤ e := le_trans (hbc ▸ min_le_left beta0 M) he0
        exact le_min (le_trans (min_le_left M e) (hI2 hM0))
          (le_trans (min_le_right M e) (hc3 hebc))
      · intro h0M hMb
        rcases le_or_lt betac e with hec | hec
        · have hfv : e ≤ fv b2 := hc3 hec
          rcases le_or_lt M e with hem | hem
          · rw [min_eq_left hem] at h0M hMb ⊢
            have hMv := hI3 h0M hMb
            rw [← hMv]
            exact (min_eq_left (le_trans hem hfv)).symm
          · exfalso
            rw [min_eq_right (le_of_lt hem)] at hMb
            have hlt : e < betac := by
              rw [hbc]
              exact lt_min hMb hem
            exact absurd hec (not_le.mpr hlt)
        · have hfv : e = fv b2 := hc2 hae hec
          have heM : e < M := lt_of_lt_of_le hec hbcM
          rw [min_eq_right (le_of_lt heM)] at h0M hMb ⊢
          have hMv_ge : e ≤ Mv := by
            rcases le_or_lt beta0 M with hM0 | hM0
            · exact le_trans (le_of_lt heM) (hI2 hM0)
            · have h3 := hI3 (lt_trans h0M heM) hM0
              exact le_of_lt (h3 ▸ heM)
          rw [← hfv]
          exact (min_eq_right hMv_ge).symm

theorem KMprop_refl (g alpha beta : EScore) : KMprop g alpha beta g :=
  ⟨fun _ => le_refl g, fun _ _ => rfl, fun _ => le_refl g⟩

/-- The Knuth-Moore window theorem for `MinMaxPlayer.minimax`: with any
window `alpha < beta`, the pruned score is exact inside the window and a
sound bound outside it, relative to the plain minimax value. -/
theorem minimaxAB_KM (h : Board → Rat) (color : Int) :
    ∀ (d : Nat) (b : Board) (alpha beta : EScore) (mx : Bool), alpha < beta →
      KMprop (minimaxAB h color d b alpha beta mx).1 alpha beta (mmVal h color d b mx)
  | 0, _, _, _, _, _ => KMprop_refl _ _ _
  | d+1, b, alpha, beta, mx, hab => by
    by_cases hgo : gameOver b
    · have h1 : (minimaxAB h color (d+1) b alpha beta mx).1 = toE (h b) := by
        rw [minimaxAB, if_pos hgo]
      have h2 : mmVal h color (d+1) b mx = toE (h b) := by
        rw [mmVal, if_pos hgo]
      rw [h1, h2]
      exact KMprop_refl _ _ _
    · by_cases hmv : validMoves b (if mx then color else -color) = []
      · have h1 := minimax_pass h color d b alpha beta mx hgo hmv
        have h2 : mmVal h color (d+1) b mx = mmVal h color d b (!mx) := by
          rw [mmVal, if_neg hgo]
          simp only [hmv, if_true]
        rw [h1, h2]
        exact minimaxAB_KM h color d b alpha beta (!mx) hab
      · cases mx with
        | true =>
          have hmv2 : ¬ validMoves b color = [] := by simpa using hmv
          have h1 : (minimaxAB h color (d+1) b alpha beta true).1 =
              (abMaxLoop (fun b2 a2 b3 => (minimaxAB h color d b2 a2 b3 false).1)
                color b (validMoves b color) ⊥ none alpha beta).1 := by
            rw [minimaxAB, if_neg hgo]
            dsimp only
            simp only [eq_self_iff_true, if_true]
            rw [if_neg hmv2]
          have h2 : mmVal h color (d+1) b true =
              ((validMoves b color).map
                (fun mv => mmVal h color d (applyMove b mv color).2 false)).foldl max ⊥ := by
            rw [mmVal, if_neg hgo]
            dsimp only
            simp only [eq_self_iff_true, if_true]
            rw [if_neg hmv2]
          rw [h1, h2]
          refine abMaxLoop_KM (fun b2 a2 b3 => (minimaxAB h color d b2 a2 b3 false).1)
            (fun b2 => mmVal h color d b2 false) color b ?_ alpha beta
            (validMoves b color) ⊥ ⊥ none alpha ?_ hab ?_ ?_
          · intro b2 a2 b3 hab2
            exact minimaxAB_KM h color d b2 a2 b3 false hab2
          · exact (max_eq_left bot_le).symm
          · intro _
            exact le_refl ⊥
          · intro hcon _
            exact absurd hcon not_lt_bot
        | false =>
          have hmv2 : ¬ validMoves b (-color) = [] := by simpa using hmv
          have h1 : (minimaxAB h color (d+1) b alpha beta false).1 =
              (abMinLoop (fun b2 a2 b3 => (minimaxAB h color d b2 a2 b3 true).1)
                (-color) b (validMoves b (-color)) ⊤ none alpha beta).1 := by
            rw [minimaxAB, if_neg hgo]
            dsimp only
            simp only [Bool.false_eq_true, if_false]
            rw [if_neg hmv2]
          have h2 : mmVal h color (d+1) b false =
              ((validMoves b (-color)).map
                (fun mv => mmVal h color d (applyMove b mv (-color)).2 true)).foldl min ⊤ := by
            rw [mmVal, if_neg hgo]
            dsimp only
            simp only [Bool.false_eq_true, if_false]
            rw [if_neg hmv2]
          rw [h1, h2]
          refine abMinLoop_KM (fun b2 a2 b3 => (minimaxAB h color d b2 a2 b3 true).1)
            (fun b2 => mmVal h color d b2 true) (-color) b ?_ alpha beta
            (validMoves b (-color)) ⊤ ⊤ none beta ?_ hab ?_ ?_
          · intro b2 a2 b3 hab2
            exact minimaxAB_KM h color d b2 a2 b3 true hab2
          · exact (min_eq_left le_top).symm
          · intro _
            exact le_refl ⊤
          · intro _ hcon
            exact absurd hcon not_top_lt

/-- The plain minimax value is always a finite heuristic value, never an
infinite sentinel. -/
theorem mmVal_finite (h : Board → Rat) (color : Int) :
    ∀ (d : Nat) (b : Board) (mx : Bool), ∃ q : Rat, mmVal h color d b mx = toE q
  | 0, b, _ => ⟨h b, rfl⟩
  | d+1, b, mx => by
    by_cases hgo : gameOver b
    · refine ⟨h b, ?_⟩
      rw [mmVal, if_pos hgo]
    · by_cases hmv : validMoves b (if mx then color else -color) = []
      · obtain ⟨q, hq⟩ := mmVal_finite h color d b (!mx)
        refine ⟨q, ?_⟩
        rw [mmVal, if_neg hgo]
        simp only [hmv, if_true]
        exact hq
      · cases mx with
        | true =>
          have hmv2 : ¬ validMoves b color = [] := by simpa using hmv
          have h2 : mmVal h color (d+1) b true =
              ((validMoves b color).map
                (fun mv => mmVal h color d (applyMove b mv color).2 false)).foldl max ⊥ := by
            rw [mmVal, if_neg hgo]
            dsimp only
            simp only [eq_self_iff_true, if_true]
            rw [if_neg hmv2]
          rw [h2]
          rcases foldl_max_cases ⊥ _ with hc | hc
          · exfalso
            obtain ⟨mv0, hmv0⟩ := List.exists_mem_of_ne_nil _ hmv2
            obtain ⟨q0, hq0⟩ := mmVal_finite h color d (applyMove b mv0 color).2 false
            have hmem : mmVal h color d (applyMove b mv0 color).2 false ∈
                (validMoves b color).map
                  (fun mv => mmVal h color d (applyMove b mv color).2 false) :=
              List.mem_map_of_mem _ hmv0
            have hle := elem_le_foldl_max ⊥ _ _ hmem
            rw [hc, hq0] at hle
            exact absurd (lt_of_lt_of_le (bot_lt_toE q0) hle) (lt_irrefl _)
          · rw [List.mem_map] at hc
            obtain ⟨mv0, hmv0, hval⟩ := hc
            obtain ⟨q0, hq0⟩ := mmVal_finite h color d (applyMove b mv0 color).2 false
            refine ⟨q0, ?_⟩
            rw [← hval]
            exact hq0
        | false =>
          have hmv2 : ¬ validMoves b (-color) = [] := by simpa using hmv
          have h2 : mmVal h color (d+1) b false =
              ((validMoves b (-color)).map
                (fun mv => mmVal h color d (applyMove b mv (-color)).2 true)).foldl min ⊤ := by
            rw [mmVal, if_neg hgo]
            dsimp only
            simp only [Bool.false_eq_true, if_false]
            rw [if_neg hmv2]
          rw [h2]
          rcases foldl_min_cases ⊤ _ with hc | hc
          · exfalso
            obtain ⟨mv0, hmv0⟩ := List.exists_mem_of_ne_nil _ hmv2
            obtain ⟨q0, hq0⟩ := mmVal_finite h color d (applyMove b mv0 (-color)).2 true
            have hmem : mmVal h color d (applyMove b mv0 (-color)).2 true ∈
                (validMoves b (-color)).map
                  (fun mv => mmVal h color d (applyMove b mv (-color)).2 true) :=
              List.mem_map_of_mem _ hmv0
            have hle := foldl_min_le_elem ⊤ _ _ hmem
            rw [hc, hq0] at hle
            exact absurd (lt_of_le_of_lt hle (toE_lt_top q0)) (lt_irrefl _)
          · rw [List.mem_map] at hc
            obtain ⟨mv0, hmv0, hval⟩ := hc
            obtain ⟨q0, hq0⟩ := mmVal_finite h color d (applyMove b mv0 (-color)).2 true
            refine ⟨q0, ?_⟩
            rw [← hval]
            exact hq0

theorem npMaxLoop_val (f : Board → EScore → EScore → EScore) (fv : Board → EScore)
    (mover : Int) (b : Board) (hf : ∀ b2 a2 b3, f b2 a2 b3 = fv b2) :
    ∀ (moves : List Move) (M : EScore) (best : Option Move) (alpha beta : EScore),
      (npMaxLoop f mover b moves M best alpha beta).1 =
        (moves.map (fun mv => fv (applyMove b mv mover).2)).foldl max M
  | [], _, _, _, _ => rfl
  | mv :: rest, M, best, alpha, beta => by
    simp only [npMaxLoop, List.map_cons, List.foldl_cons]
    rw [hf, npMaxLoop_val f fv mover b hf rest _ _ _ _, pair_fst_max]

theorem npMinLoop_val (f : Board → EScore → EScore → EScore) (fv : Board → EScore)
    (mover : Int) (b : Board) (hf : ∀ b2 a2 b3, f b2 a2 b3 = fv b2) :
    ∀ (moves : List Move) (M : EScore) (best : Option Move) (alpha beta : EScore),
      (npMinLoop f mover b moves M best alpha beta).1 =
        (moves.map (fun mv => fv (applyMove b mv mover).2)).foldl min M
  | [], _, _, _, _ => rfl
  | mv :: rest, M, best, alpha, beta => by
    simp only [npMinLoop, List.map_cons, List.foldl_cons]
    rw [hf, npMinLoop_val f fv mover b hf rest _ _ _ _, pair_fst_min]

/-- Without the pruning break, the alpha/beta parameters are dead values:
the returned score is exactly the plain minimax value. -/
theorem minimaxNoPrune_val (h : Board → Rat) (color : Int) :
    ∀ (d : Nat) (b : Board) (alpha beta : EScore) (mx : Bool),
      (minimaxNoPrune h color d b alpha beta mx).1 = mmVal h color d b mx
  | 0, _, _, _, _ => rfl
  | d+1, b, alpha, beta, mx => by
    by_cases hgo : gameOver b
    · have h1 : (minimaxNoPrune h color (d+1) b alpha beta mx).1 = toE (h b) := by
        rw [minimaxNoPrune, if_pos hgo]
      have h2 : mmVal h color (d+1) b mx = toE (h b) := by
        rw [mmVal, if_pos hgo]
      rw [h1, h2]
    · by_cases hmv : validMoves b (if mx then color else -color) = []
      · have h1 : (minimaxNoPrune h color (d+1) b alpha beta mx).1 =
            (minimaxNoPrune h color d b alpha beta (!mx)).1 := by
          rw [minimaxNoPrune, if_neg hgo]
          simp only [hmv, if_true]
        have h2 : mmVal h color (d+1) b mx = mmVal h color d b (!mx) := by
          rw [mmVal, if_neg hgo]
          simp only [hmv, if_true]
        rw [h1, h2]
        exact minimaxNoPrune_val h color d b alpha beta (!mx)
      · cases mx with
        | true =>
          have hmv2 : ¬ validMoves b color = [] := by simpa using hmv
          have h1 : (minimaxNoPrune h color (d+1) b alpha beta true).1 =
              (npMaxLoop (fun b2 a2 b3 => (minimaxNoPrune h color d b2 a2 b3 false).1)
                color b (validMoves b color) ⊥ none alpha beta).1 := by
            rw [minimaxNoPrune, if_neg hgo]
            dsimp only
            simp only [eq_self_iff_true, if_true]
            rw [if_neg hmv2]
          have h2 : mmVal h color (d+1) b true =
              ((validMoves b color).map
                (fun mv => mmVal h color d (applyMove b mv color).2 false)).foldl max ⊥ := by
            rw [mmVal, if_neg hgo]
            dsimp only
            simp only [eq_self_iff_true, if_true]
            rw [if_neg hmv2]
          rw [h1, h2]
          exact npMaxLoop_val (fun b2 a2 b3 => (minimaxNoPrune h color d b2 a2 b3 false).1)
            (fun b2 => mmVal h color d b2 false) color b
            (fun b2 a2 b3 => minimaxNoPrune_val h color d b2 a2 b3 false)
            (validMoves b color) ⊥ none alpha beta
        | false =>
          have hmv2 : ¬ validMoves b (-color) = [] := by simpa using hmv
          have h1 : (minimaxNoPrune h color (d+1) b alpha beta false).1 =
              (npMinLoop (fun b2 a2 b3 => (minimaxNoPrune h color d b2 a2 b3 true).1)
                (-color) b (validMoves b (-color)) ⊤ none alpha beta).1 := by
            rw [minimaxNoPrune, if_neg hgo]
            dsimp only
            simp only [Bool.false_eq_true, if_false]
            rw [if_neg hmv2]
          have h2 : mmVal h color (d+1) b false =
              ((validMoves b (-color)).map
                (fun mv => mmVal h color d (applyMove b mv (-color)).2 true)).foldl min ⊤ := by
            rw [mmVal, if_neg hgo]
            dsimp only
            simp only [Bool.false_eq_true, if_false]
            rw [if_neg hmv2]
          rw [h1, h2]
          exact npMinLoop_val (fun b2 a2 b3 => (minimaxNoPrune h color d b2 a2 b3 true).1)
            (fun b2 => mmVal h color d b2 true) (-color) b
            (fun b2 a2 b3 => minimaxNoPrune_val h color d b2 a2 b3 true)
            (validMoves b (-color)) ⊤ none alpha beta

/-! ## Claim C3: alpha-beta pruning never changes the root score -/

/-- C3: for every board, depth and heuristic evaluator, minimax with
alpha-beta pruning called at the root with `alpha = -inf` and `beta = +inf`
returns the same best score as the identical recursion with the pruning
break removed. -/
theorem alphabeta_equals_noPrune (h : Board → Rat) (color : Int) (d : Nat) (b : Board)
    (mx : Bool) :
    (minimaxAB h color d b ⊥ ⊤ mx).1 = (minimaxNoPrune h color d b ⊥ ⊤ mx).1 := by
  rw [minimaxNoPrune_val]
  obtain ⟨hKM1, hKM2, hKM3⟩ := minimaxAB_KM h color d b ⊥ ⊤ mx bot_lt_top
  obtain ⟨q, hq⟩ := mmVal_finite h color d b mx
  rcases le_or_lt (minimaxAB h color d b ⊥ ⊤ mx).1 ⊥ with hg | hg
  · exfalso
    have hvb := le_trans (hKM1 hg) hg
    rw [hq] at hvb
    exact absurd (lt_of_lt_of_le (bot_lt_toE q) hvb) (lt_irrefl _)
  · rcases lt_or_le (minimaxAB h color d b ⊥ ⊤ mx).1 ⊤ with hg2 | hg2
    · exact hKM2 hg hg2
    · exfalso
      have hvt := le_trans hg2 (hKM3 hg2)
      rw [hq] at hvt
      exact absurd (lt_of_le_of_lt hvt (toE_lt_top q)) (lt_irrefl _)

/-- Witness for `legal_move_flips_and_counts` at the opening position. -/
theorem legal_move_flips_and_counts_witness :
    WB initialBoard ∧ (2, 3) ∈ validMoves initialBoard 1 ∧
    ((applyMove initialBoard (2, 3) 1).1 = true ∧
      (∃ q, inB q ∧ cellv initialBoard q = -1 ∧
        cellv (applyMove initialBoard (2, 3) 1).2 q = 1) ∧
      totalDisks (applyMove initialBoard (2, 3) 1).2 1 = totalDisks initialBoard 1 + 1) :=
  ⟨by decide, by decide,
    legal_move_flips_and_counts initialBoard 1 (2, 3) (by decide) (by decide)⟩

/-! ## Claim C8: the MCTS node key depends only on the grid -/

/-- C8: the canonical node key of `MCTSAgent.get_node_key` is a function of
the grid contents only: any two game states with equal grids get equal keys
even when their sides to move differ, and two distinct states (same grid,
different movers) do collide. -/
theorem node_key_grid_only :
    (∀ s1 s2 : GState, s1.board = s2.board → getNodeKey s1 = getNodeKey s2) ∧
    (∃ s1 s2 : GState, s1 ≠ s2 ∧ s1.board = s2.board ∧
      s1.currentPlayer ≠ s2.currentPlayer ∧ getNodeKey s1 = getNodeKey s2) :=
  ⟨fun _ _ h => h,
    ⟨⟨initialBoard, 1⟩, ⟨initialBoard, -1⟩, by decide, rfl, by decide, rfl⟩⟩

/-- Witness for `node_key_grid_only`: the opening grid with BLACK to move
and with WHITE to move share one key. -/
theorem node_key_grid_only_witness :
    (⟨initialBoard, 1⟩ : GState).board = (⟨initialBoard, -1⟩ : GState).board ∧
    getNodeKey ⟨initialBoard, 1⟩ = getNodeKey ⟨initialBoard, -1⟩ :=
  ⟨rfl, node_key_grid_only.1 ⟨initialBoard, 1⟩ ⟨initialBoard, -1⟩ rfl⟩

/-! ## Claim C6: the stability heuristic -/

/-- C6 counterexample: on `unstableBoard` with BLACK evaluating, the code
value differs from the claimed formula (the code counts one adjacency
incidence per opponent move and direction, the claim counts distinct
disks). -/
theorem stability_claim_counterexample :
    stability_heuristic unstableBoard 1 ≠ stability_claim unstableBoard 1 := by
  have h1 : find_stable_disks unstableBoard 1 = 0 := by decide
  have h2 : find_stable_disks unstableBoard (-1) = 0 := by decide
  have h3 : find_unstable_disks unstableBoard 1 (validMoves unstableBoard (-1)) = 2 := by
    decide
  have h4 : find_unstable_disks unstableBoard (-1) (validMoves unstableBoard 1) = 2 := by
    decide
  have h5 : stableCount unstableBoard 1 = 0 := by decide
  have h6 : stableCount unstableBoard (-1) = 0 := by decide
  have h7 : unstableDisksSpec unstableBoard 1 (validMoves unstableBoard (-1)) = 1 := by
    decide
  have h8 : unstableDisksSpec unstableBoard (-1) (validMoves unstableBoard 1) = 2 := by
    decide
  simp only [stability_heuristic, stability_claim, h1, h2, h3, h4, h5, h6, h7, h8]
  norm_num

theorem decide_congr {p q : Prop} [Decidable p] [Decidable q] (h : p ↔ q) :
    decide p = decide q := by
  by_cases hp : p
  · rw [decide_eq_true hp, decide_eq_true (h.mp hp)]
  · rw [decide_eq_false hp, decide_eq_false (fun hq => hp (h.mpr hq))]

theorem map_congr_mem {α β : Type} (f g : α → β) :
    ∀ l : List α, (∀ x ∈ l, f x = g x) → l.map f = l.map g
  | [], _ => rfl
  | x :: xs, h => by
    rw [List.map_cons, List.map_cons, h x (List.mem_cons_self x xs),
      map_congr_mem f g xs (fun y hy => h y (List.mem_cons_of_mem x hy))]

theorem posAt_oneq (q d : Move) : posAt q d 1 = (q.1 + d.1, q.2 + d.2) := by
  simp [posAt]

theorem find_stable_eq_stableCount (b : Board) (p : Int) :
    find_stable_disks b p = stableCount b p := by
  rw [find_stable_disks, stableCount]
  apply countP_congr_mem
  intro q _
  by_cases h1 : cellv b q = p
  · by_cases h2 : stableDisk b q
    · have hany : (directions.any fun d => decide (inB (q.1 + d.1, q.2 + d.2) ∧
          cellv b (q.1 + d.1, q.2 + d.2) = 0)) = false := by
        rw [List.any_eq_false]
        intro d hd
        simp only [decide_eq_true_eq]
        rintro ⟨hin, hc0⟩
        rw [← posAt_oneq] at hin hc0
        exact h2 d hd hin hc0
      rw [hany]
      simp [h1, h2]
    · have hany : (directions.any fun d => decide (inB (q.1 + d.1, q.2 + d.2) ∧
          cellv b (q.1 + d.1, q.2 + d.2) = 0)) = true := by
        rw [List.any_eq_true]
        unfold stableDisk at h2
        push_neg at h2
        obtain ⟨d, hd, hin, hc0⟩ := h2
        refine ⟨d, hd, ?_⟩
        rw [posAt_oneq] at hin hc0
        simp [hin, hc0]
      rw [hany]
      simp [h1, h2]
  · simp [h1]

theorem find_unstable_eq_pairs (b : Board) (p : Int) (l : List Move) :
    find_unstable_disks b p l = unstablePairs b p l := by
  rw [find_unstable_disks, unstablePairs]
  congr 1

/-- C6 amended: `stability_heuristic` equals the claimed formula once the
unstable counts are read as adjacency incidence counts (one per opponent
move and direction whose neighbor holds the side's disk) instead of
distinct-disk counts. -/
theorem stability_heuristic_amended (b : Board) (p : Int) :
    stability_heuristic b p = stability_amended b p := by
  simp only [stability_heuristic, stability_amended, find_stable_eq_stableCount,
    find_unstable_eq_pairs]

/-! ## Claim C4: MCTS end-of-budget move selection -/

/-- Python's `max` over a nonempty list: the result is the seed or a list
element, it dominates the seed, and it dominates every element. -/
theorem pyMax_aux (f : Board → Nat) :
    ∀ (l : List Board) (best : Board),
      (pyMax f best l = best ∨ pyMax f best l ∈ l) ∧
      f best ≤ f (pyMax f best l) ∧ ∀ k ∈ l, f k ≤ f (pyMax f best l)
  | [], best => ⟨Or.inl rfl, le_refl _, fun k hk => absurd hk (List.not_mem_nil k)⟩
  | k0 :: rest, best => by
    rw [pyMax]
    set b2 := if f best < f k0 then k0 else best with hb2
    obtain ⟨hmem, hle, hall⟩ := pyMax_aux f rest b2
    have hb2cases : b2 = k0 ∨ b2 = best := by
      rw [hb2]
      split_ifs
      · exact Or.inl rfl
      · exact Or.inr rfl
    have hbestle : f best ≤ f b2 := by
      rw [hb2]
      split_ifs with h
      · exact le_of_lt h
      · exact le_refl _
    have hk0le : f k0 ≤ f b2 := by
      rw [hb2]
      split_ifs with h
      · exact le_refl _
      · exact not_lt.mp h
    refine ⟨?_, le_trans hbestle hle, ?_⟩
    · rcases hmem with h | h
      · rcases hb2cases with h2 | h2
        · exact Or.inr (List.mem_cons.mpr (Or.inl (h.trans h2)))
        · exact Or.inl (h.trans h2)
      · exact Or.inr (List.mem_cons_of_mem k0 h)
    · intro k hk
      rcases List.mem_cons.mp hk with rfl | hk2
      · exact le_trans hk0le hle
      · exact hall k hk2

/-- C4: at the end of the search budget, the move selection of
`MCTSAgent.timed_search` returns `None` exactly when the root acquired no
children, and any returned move is a legal root move whose application
(with the side-to-move flip) produces the key of a most-visited root child.
The hypothesis is the expansion invariant: every recorded root child key
came from applying some legal root move. -/
theorem mcts_selectBestMove_spec (children : Board → List Board) (visits : Board → Nat)
    (s : GState)
    (hinv : ∀ k ∈ children (getNodeKey s), ∃ mv ∈ validMoves s.board s.currentPlayer,
      getNodeKey ⟨(applyMove s.board mv s.currentPlayer).2, -s.currentPlayer⟩ = k) :
    (selectBestMove children visits s = none ↔ children (getNodeKey s) = []) ∧
    (∀ mv, selectBestMove children visits s = some mv →
      mv ∈ validMoves s.board s.currentPlayer ∧
      getNodeKey ⟨(applyMove s.board mv s.currentPlayer).2, -s.currentPlayer⟩
        ∈ children (getNodeKey s) ∧
      ∀ k ∈ children (getNodeKey s),
        visits k ≤ visits (getNodeKey ⟨(applyMove s.board mv s.currentPlayer).2,
          -s.currentPlayer⟩)) := by
  rcases hch : children (getNodeKey s) with _ | ⟨k0, rest⟩
  · have hnone : selectBestMove children visits s = none := by
      simp only [selectBestMove, hch, bestChildKey]
    refine ⟨⟨fun _ => rfl, fun _ => hnone⟩, ?_⟩
    intro mv hmv
    rw [hnone] at hmv
    exact Option.noConfusion hmv
  · have hsel : selectBestMove children visits s =
        (validMoves s.board s.currentPlayer).find? (fun mv =>
          decide (getNodeKey ⟨(applyMove s.board mv s.currentPlayer).2,
            -s.currentPlayer⟩ = pyMax visits k0 rest)) := by
      simp only [selectBestMove, hch, bestChildKey]
    have hbkmem : pyMax visits k0 rest ∈ k0 :: rest := by
      rcases (pyMax_aux visits rest k0).1 with h | h
      · rw [h]
        exact List.mem_cons_self _ _
      · exact List.mem_cons_of_mem _ h
    have hbkmax : ∀ k ∈ k0 :: rest, visits k ≤ visits (pyMax visits k0 rest) := by
      intro k hk
      rcases List.mem_cons.mp hk with rfl | hk2
      · exact (pyMax_aux visits rest k).2.1
      · exact (pyMax_aux visits rest k0).2.2 k hk2
    obtain ⟨mv0, hmv0, hkey0⟩ := hinv (pyMax visits k0 rest) (by rw [hch]; exact hbkmem)
    have hfind : (validMoves s.board s.currentPlayer).find? (fun mv =>
        decide (getNodeKey ⟨(applyMove s.board mv s.currentPlayer).2,
          -s.currentPlayer⟩ = pyMax visits k0 rest)) ≠ none := by
      intro hfn
      rw [List.find?_eq_none] at hfn
      exact hfn mv0 hmv0 (decide_eq_true hkey0)
    refine ⟨⟨fun hn => absurd (hsel ▸ hn) hfind,
      fun hemp => absurd hemp (List.cons_ne_nil k0 rest)⟩, ?_⟩
    intro mv hmv
    rw [hsel] at hmv
    have hpred := List.find?_some hmv
    have hmem := List.mem_of_find?_eq_some hmv
    rw [decide_eq_true_eq] at hpred
    refine ⟨hmem, ?_, ?_⟩
    · rw [hpred]
      exact hbkmem
    · intro k hk
      rw [hpred]
      exact hbkmax k hk

/-- Witness for `mcts_selectBestMove_spec` on a one-child tree rooted at
the opening position. -/
theorem mcts_selectBestMove_spec_witness :
    (∀ k ∈ mctsChildrenW (getNodeKey mctsStateW),
      ∃ mv ∈ validMoves mctsStateW.board mctsStateW.currentPlayer,
        getNodeKey ⟨(applyMove mctsStateW.board mv mctsStateW.currentPlayer).2,
          -mctsStateW.currentPlayer⟩ = k) ∧
    ((selectBestMove mctsChildrenW (fun _ => 0) mctsStateW = none ↔
        mctsChildrenW (getNodeKey mctsStateW) = []) ∧
      (∀ mv, selectBestMove mctsChildrenW (fun _ => 0) mctsStateW = some mv →
        mv ∈ validMoves mctsStateW.board mctsStateW.currentPlayer ∧
        getNodeKey ⟨(applyMove mctsStateW.board mv mctsStateW.currentPlayer).2,
          -mctsStateW.currentPlayer⟩ ∈ mctsChildrenW (getNodeKey mctsStateW) ∧
        ∀ k ∈ mctsChildrenW (getNodeKey mctsStateW),
          (fun _ => 0 : Board → Nat) k ≤ (fun _ => 0 : Board → Nat)
            (getNodeKey ⟨(applyMove mctsStateW.board mv mctsStateW.currentPlayer).2,
              -mctsStateW.currentPlayer⟩))) :=
  ⟨by decide, mcts_selectBestMove_spec mctsChildrenW (fun _ => 0) mctsStateW (by decide)⟩

/-! ## Frame lemmas: the searches never touch a pre-existing heap object -/

theorem nthD_append {α : Type} (d : α) :
    ∀ (l l2 : List α) (j : Nat), j < l.length → nthD d (l ++ l2) j = nthD d l j
  | [], _, _, h => absurd h (by simp)
  | _ :: _, _, 0, _ => rfl
  | _ :: xs, l2, j+1, h =>
    nthD_append d xs l2 j (by simpa using Nat.lt_of_succ_lt_succ h)

theorem hget_copyH (h : Heap) (i j : Nat) (hj : j < h.length) :
    hget (copyH h i).2 j = hget h j :=
  nthD_append _ h _ j hj

theorem length_copyH (h : Heap) (i : Nat) : (copyH h i).2.length = h.length + 1 := by
  simp [copyH]

theorem hget_applyMoveH (h : Heap) (i : Nat) (mv : Move) (p : Int) (j : Nat)
    (hj : j ≠ i) : hget (applyMoveH h i mv p).2 j = hget h j :=
  nthD_setIdx_ne _ h i j _ hj

theorem length_applyMoveH (h : Heap) (i : Nat) (mv : Move) (p : Int) :
    (applyMoveH h i mv p).2.length = h.length :=
  length_setIdx h i _

theorem hget_flipPlayerH (h : Heap) (i j : Nat) (hj : j ≠ i) :
    hget (flipPlayerH h i) j = hget h j :=
  nthD_setIdx_ne _ h i j _ hj

theorem length_flipPlayerH (h : Heap) (i : Nat) :
    (flipPlayerH h i).length = h.length :=
  length_setIdx h i _

theorem HFrame_refl (h : Heap) : HFrame h h :=
  ⟨le_refl _, fun _ _ => rfl⟩

theorem HFrame_trans {h h2 h3 : Heap} (h12 : HFrame h h2) (h23 : HFrame h2 h3) :
    HFrame h h3 :=
  ⟨le_trans h12.1 h23.1, fun j hj =>
    (h23.2 j (lt_of_lt_of_le hj h12.1)).trans (h12.2 j hj)⟩

theorem HFrame_copyH (h : Heap) (i : Nat) : HFrame h (copyH h i).2 :=
  ⟨by rw [length_copyH]; exact Nat.le_succ _, fun j hj => hget_copyH h i j hj⟩

theorem HFrame_applyMoveH_of {h h2 : Heap} {i : Nat} (hf : HFrame h h2)
    (hi : h.length ≤ i) (mv : Move) (p : Int) :
    HFrame h (applyMoveH h2 i mv p).2 :=
  ⟨by rw [length_applyMoveH]; exact hf.1, fun j hj => by
    rw [hget_applyMoveH h2 i mv p j (by omega)]; exact hf.2 j hj⟩

theorem HFrame_flipPlayerH_of {h h2 : Heap} {i : Nat} (hf : HFrame h h2)
    (hi : h.length ≤ i) : HFrame h (flipPlayerH h2 i) :=
  ⟨by rw [length_flipPlayerH]; exact hf.1, fun j hj => by
    rw [hget_flipPlayerH h2 i j (by omega)]; exact hf.2 j hj⟩

theorem abMaxLoopH_frame (f : Heap → Nat → EScore → EScore → EScore × Heap)
    (hf : ∀ (h : Heap) (i : Nat) (a b : EScore), HFrame h (f h i a b).2)
    (mover : Int) (srcIdx : Nat) :
    ∀ (moves : List Move) (h : Heap) (M : EScore) (best : Option Move)
      (a b : EScore), HFrame h (abMaxLoopH f mover srcIdx moves h M best a b).2 := by
  intro moves
  induction moves with
  | nil => intro h M best a b; exact HFrame_refl h
  | cons mv rest ih =>
    intro h M best a b
    simp only [abMaxLoopH]
    have h2 : HFrame h (applyMoveH (copyH h srcIdx).2 (copyH h srcIdx).1 mv mover).2 :=
      HFrame_applyMoveH_of (HFrame_copyH h srcIdx) (le_refl _) mv mover
    have h4 : HFrame h
        (f (applyMoveH (copyH h srcIdx).2 (copyH h srcIdx).1 mv mover).2
          (copyH h srcIdx).1 a b).2 :=
      HFrame_trans h2 (hf _ _ a b)
    split
    · exact h4
    · exact HFrame_trans h4 (ih _ _ _ _ _)

theorem abMinLoopH_frame (f : Heap → Nat → EScore → EScore → EScore × Heap)
    (hf : ∀ (h : Heap) (i : Nat) (a b : EScore), HFrame h (f h i a b).2)
    (mover : Int) (srcIdx : Nat) :
    ∀ (moves : List Move) (h : Heap) (M : EScore) (best : Option Move)
      (a b : EScore), HFrame h (abMinLoopH f mover srcIdx moves h M best a b).2 := by
  intro moves
  induction moves with
  | nil => intro h M best a b; exact HFrame_refl h
  | cons mv rest ih =>
    intro h M best a b
    simp only [abMinLoopH]
    have h2 : HFrame h (applyMoveH (copyH h srcIdx).2 (copyH h srcIdx).1 mv mover).2 :=
      HFrame_applyMoveH_of (HFrame_copyH h srcIdx) (le_refl _) mv mover
    have h4 : HFrame h
        (f (applyMoveH (copyH h srcIdx).2 (copyH h srcIdx).1 mv mover).2
          (copyH h srcIdx).1 a b).2 :=
      HFrame_trans h2 (hf _ _ a b)
    split
    · exact h4
    · exact HFrame_trans h4 (ih _ _ _ _ _)

theorem minimaxH_frame (hr : Board → Rat) (color : Int) :
    ∀ (d : Nat) (h : Heap) (i : Nat) (a b : EScore) (mx : Bool),
      HFrame h (minimaxH hr color d h i a b mx).2 := by
  intro d
  induction d with
  | zero => intro h i a b mx; exact HFrame_refl h
  | succ d ih =>
    intro h i a b mx
    simp only [minimaxH]
    split
    · exact HFrame_refl h
    · split
      · split
        · exact ih h i a b (!mx)
        · exact abMaxLoopH_frame _ (fun h2 j a2 b2 => ih h2 j a2 b2 false) color i _ h ⊥ none a b
      · split
        · exact ih h i a b (!mx)
        · exact abMinLoopH_frame _ (fun h2 j a2 b2 => ih h2 j a2 b2 true) (-color) i _ h ⊤ none a b

theorem simLoopH_frame (rng : Nat → Nat) :
    ∀ (fuel ctr : Nat) (h : Heap) (i : Nat),
      (simLoopH rng fuel ctr h i).1.length = h.length ∧
      ∀ j, j ≠ i → hget (simLoopH rng fuel ctr h i).1 j = hget h j := by
  intro fuel
  induction fuel with
  | zero => intro ctr h i; exact ⟨rfl, fun _ _ => rfl⟩
  | succ fuel ih =>
    intro ctr h i
    simp only [simLoopH]
    split
    · exact ⟨rfl, fun _ _ => rfl⟩
    · rcases hmv : validMoves (hget h i).board (hget h i).currentPlayer with _ | ⟨mv0, rest⟩
    -- pass: no legal move, only the side to move flips
      · dsimp only
        obtain ⟨hl, hj⟩ := ih ctr (flipPlayerH h i) i
        refine ⟨hl.trans (length_flipPlayerH h i), fun j hji => ?_⟩
        rw [hj j hji, hget_flipPlayerH h i j hji]
      · dsimp only
        obtain ⟨hl, hj⟩ := ih (ctr + 1)
          (flipPlayerH (applyMoveH h i
            (nthD mv0 (mv0 :: rest) (rng ctr % (mv0 :: rest).length))
            (hget h i).currentPlayer).2 i) i
        refine ⟨hl.trans ((length_flipPlayerH _ i).trans (length_applyMoveH h i _ _)),
          fun j hji => ?_⟩
        rw [hj j hji, hget_flipPlayerH _ i j hji, hget_applyMoveH h i _ _ j hji]

theorem HFrame_simulationH (rng : Nat → Nat) (fuel ctr : Nat) (h : Heap) (i : Nat) :
    HFrame h (simulationH rng fuel ctr h i).2.1 := by
  obtain ⟨hl, hj⟩ := simLoopH_frame rng fuel ctr (copyH h i).2 (copyH h i).1
  have hlen : (copyH h i).1 = h.length := rfl
  constructor
  · show h.length ≤ (simLoopH rng fuel ctr (copyH h i).2 (copyH h i).1).1.length
    rw [hl, length_copyH]
    exact Nat.le_succ _
  · intro j hjlt
    show hget (simLoopH rng fuel ctr (copyH h i).2 (copyH h i).1).1 j = hget h j
    rw [hj j (by omega), hget_copyH h i j hjlt]

theorem selLoopH_frame (sel : Heap → Nat → Nat × Heap)
    (hsel : ∀ (h : Heap) (i : Nat), HFrame h (sel h i).2) (bk : Board) :
    ∀ (moves : List Move) (h : Heap) (i : Nat),
      HFrame h (selLoopH sel bk moves h i).2 := by
  intro moves
  induction moves with
  | nil => intro h i; exact HFrame_copyH h i
  | cons mv rest ih =>
    intro h i
    simp only [selLoopH]
    have h3 : HFrame h
        (flipPlayerH (applyMoveH (copyH h i).2 (copyH h i).1 mv
          (hget (copyH h i).2 (copyH h i).1).currentPlayer).2 (copyH h i).1) :=
      HFrame_flipPlayerH_of
        (HFrame_applyMoveH_of (HFrame_copyH h i) (le_refl _) _ _) (le_refl _)
    split
    · exact HFrame_trans h3 (hsel _ _)
    · exact HFrame_trans h3 (ih _ _)

theorem selectionH_frame (ucb : List Board → Board) (t : TreeState) :
    ∀ (fuel : Nat) (h : Heap) (i : Nat), HFrame h (selectionH ucb t fuel h i).2 := by
  intro fuel
  induction fuel with
  | zero => intro h i; exact HFrame_copyH h i
  | succ fuel ih =>
    intro h i
    rw [selectionH]
    split
    · exact HFrame_copyH h i
    · exact selLoopH_frame _ (fun h2 j => ih h2 j) _ _ h i

theorem expansionH_frame (rng : Nat → Nat) (ctr : Nat) (t : TreeState) (h : Heap)
    (i : Nat) : HFrame h (expansionH rng ctr t h i).1.2 := by
  rw [expansionH]
  split
  · exact HFrame_flipPlayerH_of
      (HFrame_applyMoveH_of (HFrame_copyH h i) (le_refl _) _ _) (le_refl _)
  · exact HFrame_copyH h i

theorem rolloutsH_frame (rng : Nat → Nat) (simFuel bpFuel : Nat) (expKey : Board)
    (expIdx : Nat) :
    ∀ (n : Nat) (t : TreeState) (ctr : Nat) (h : Heap),
      HFrame h (rolloutsH rng simFuel bpFuel expKey expIdx n t ctr h).2.2 := by
  intro n
  induction n with
  | zero => intro t ctr h; exact HFrame_refl h
  | succ n ih =>
    intro t ctr h
    rw [rolloutsH]
    exact HFrame_trans (HFrame_simulationH rng simFuel ctr h expIdx) (ih _ _ _)

theorem mctsIterationH_frame (ucb : List Board → Board) (rng : Nat → Nat)
    (selFuel simFuel bpFuel nroll : Nat) (t : TreeState) (ctr : Nat) (h : Heap)
    (rootIdx : Nat) :
    HFrame h (mctsIterationH ucb rng selFuel simFuel bpFuel nroll t ctr h rootIdx).2.2 := by
  rw [mctsIterationH]
  have s1 := selectionH_frame ucb t selFuel (copyH h rootIdx).2 (copyH h rootIdx).1
  have e1 := expansionH_frame rng ctr t
    (copyH (selectionH ucb t selFuel (copyH h rootIdx).2 (copyH h rootIdx).1).2
      (selectionH ucb t selFuel (copyH h rootIdx).2 (copyH h rootIdx).1).1).2
    (copyH (selectionH ucb t selFuel (copyH h rootIdx).2 (copyH h rootIdx).1).2
      (selectionH ucb t selFuel (copyH h rootIdx).2 (copyH h rootIdx).1).1).1
  exact HFrame_trans (HFrame_copyH h rootIdx)
    (HFrame_trans s1
      (HFrame_trans (HFrame_copyH _ _)
        (HFrame_trans e1 (rolloutsH_frame _ _ _ _ _ _ _ _ _))))

theorem timedSearchH_frame (ucb : List Board → Board) (rng : Nat → Nat)
    (selFuel simFuel bpFuel nroll : Nat) :
    ∀ (iters : Nat) (t : TreeState) (ctr : Nat) (h : Heap) (rootIdx : Nat),
      HFrame h (timedSearchH ucb rng selFuel simFuel bpFuel nroll iters t ctr h rootIdx).2 := by
  intro iters
  induction iters with
  | zero => intro t ctr h rootIdx; exact HFrame_refl h
  | succ iters ih =>
    intro t ctr h rootIdx
    rw [timedSearchH]
    exact HFrame_trans
      (mctsIterationH_frame ucb rng selFuel simFuel bpFuel nroll t ctr h rootIdx)
      (ih _ _ _ _)

/-- C7: calling `get_move` on either search agent (minimax or MCTS) leaves
the caller's live state unchanged.  In the explicit heap model, running
`MinMaxPlayer.get_move` or `MCTSAgent.get_move` from any object reference
preserves every object that existed before the call: both the board grid
and the side to move of each pre-existing object equal their values before
the call, for every heuristic, search depth, fuel bound, iteration budget
and choice of the UCB1/random oracles — every exploratory move application
happens on a freshly allocated deep copy. -/
theorem getMove_frame :
    (∀ (hr : Board → Rat) (color : Int) (depth : Nat) (h : Heap) (i j : Nat),
        j < h.length →
        (hget (minimaxGetMoveH hr color depth h i).2 j).board = (hget h j).board ∧
        (hget (minimaxGetMoveH hr color depth h i).2 j).currentPlayer =
          (hget h j).currentPlayer) ∧
    (∀ (ucb : List Board → Board) (rng : Nat → Nat)
        (selFuel simFuel bpFuel nroll iters : Nat) (h : Heap) (i j : Nat),
        j < h.length →
        (hget (mctsGetMoveH ucb rng selFuel simFuel bpFuel nroll iters h i).2 j).board =
          (hget h j).board ∧
        (hget (mctsGetMoveH ucb rng selFuel simFuel bpFuel nroll iters h i).2 j).currentPlayer =
          (hget h j).currentPlayer) := by
  constructor
  · intro hr color depth h i j hj
    have h1 : hget (minimaxGetMoveH hr color depth h i).2 j = hget h j :=
      (minimaxH_frame hr color depth h i ⊥ ⊤ true).2 j hj
    exact ⟨congrArg GState.board h1, congrArg GState.currentPlayer h1⟩
  · intro ucb rng selFuel simFuel bpFuel nroll iters h i j hj
    have h1 : hget (mctsGetMoveH ucb rng selFuel simFuel bpFuel nroll iters h i).2 j =
        hget h j :=
      (timedSearchH_frame ucb rng selFuel simFuel bpFuel nroll iters ⟨[], []⟩ 0 h i).2 j hj
    exact ⟨congrArg GState.board h1, congrArg GState.currentPlayer h1⟩

/-- Witness for `getMove_frame`: a one-object heap holding the opening
position is untouched by a depth-1 minimax search and by a one-iteration
MCTS search with unit fuels. -/
theorem getMove_frame_witness :
    (0 < ([⟨initialBoard, 1⟩] : Heap).length ∧
      ((hget (minimaxGetMoveH (fun _ => 0) 1 1 [⟨initialBoard, 1⟩] 0).2 0).board =
          (hget [⟨initialBoard, 1⟩] 0).board ∧
        (hget (minimaxGetMoveH (fun _ => 0) 1 1 [⟨initialBoard, 1⟩] 0).2 0).currentPlayer =
          (hget [⟨initialBoard, 1⟩] 0).currentPlayer)) ∧
    (0 < ([⟨initialBoard, 1⟩] : Heap).length ∧
      ((hget (mctsGetMoveH (fun l => nthD ([] : Board) l 0) (fun _ => 0) 1 1 1 1 1
            [⟨initialBoard, 1⟩] 0).2 0).board = (hget [⟨initialBoard, 1⟩] 0).board ∧
        (hget (mctsGetMoveH (fun l => nthD ([] : Board) l 0) (fun _ => 0) 1 1 1 1 1
            [⟨initialBoard, 1⟩] 0).2 0).currentPlayer =
          (hget [⟨initialBoard, 1⟩] 0).currentPlayer)) :=
  ⟨⟨by decide, getMove_frame.1 (fun _ => 0) 1 1 [⟨initialBoard, 1⟩] 0 0 (by decide)⟩,
   ⟨by decide, getMove_frame.2 (fun l => nthD ([] : Board) l 0) (fun _ => 0) 1 1 1 1 1
      [⟨initialBoard, 1⟩] 0 0 (by decide)⟩⟩
